import Mathlib

/-!
Verification of the StGit stack-transaction core (`stgit/lib/transaction.py`,
`stgit/lib/git.py`, `stgit/utils.py`) against its natural-language
specification.  Git objects are identified by abstract SHA identifiers
(natural numbers); per-repository interning makes Python object identity
coincide with SHA equality, so commit/tree equality is modelled as equality
of identifiers.  Effects on the repository (checkouts, ref updates, log
entries) are recorded in explicit state so that frame claims can be settled.
-/

namespace StGit

/-- Abstract SHA-1 identifier for a git object (commit or tree). -/
abbrev Sha := Nat

/-- From `stgit/lib/git.py` `Person`: author/committer identity.  The fields
are opaque to the transaction engine; only (identity-based) equality of the
whole value is ever consulted. -/
structure Person where
  name : String
  email : String
  date : String
deriving DecidableEq, Repr

instance : Inhabited Person := ⟨⟨"", "", ""⟩⟩

/-- From `stgit/lib/git.py` `CommitData`: the data contents of a git commit
object.  `tree` and the elements of `parents` are SHAs of trees/commits. -/
structure CommitData where
  tree : Sha
  parents : List Sha
  author : Person
  committer : Option Person
  message : String
deriving DecidableEq, Repr

instance : Inhabited CommitData := ⟨⟨0, [], default, none, ""⟩⟩

/-- `CommitData.parent`: the sole parent (the source asserts there is exactly
one; we default to 0 where Python would assert). -/
def CommitData.parent (cd : CommitData) : Sha := cd.parents.headD 0

/-- `CommitData.set_tree`. -/
def CommitData.set_tree (cd : CommitData) (t : Sha) : CommitData :=
  { cd with tree := t }

/-- `CommitData.set_parent`: replaces the parent list with a single parent. -/
def CommitData.set_parent (cd : CommitData) (p : Sha) : CommitData :=
  { cd with parents := [p] }

/-- `CommitData.set_committer`. -/
def CommitData.set_committer (cd : CommitData) (c : Option Person) : CommitData :=
  { cd with committer := c }

/-- The repository's commit store: a table from SHA to commit data plus a
fresh-SHA counter.  `commit-tree` allocates a fresh object. -/
structure Repo where
  table : List (Sha × CommitData)
  next : Sha
deriving DecidableEq, Repr

/-- Look up the data of a commit (lazily-loaded payload in the source). -/
def Repo.dataOf (r : Repo) (s : Sha) : CommitData :=
  (r.table.lookup s).getD default

/-- `repository.commit(cd)` from `stgit/lib/git.py` (`CommitData.commit`):
writes a new commit object and returns its (fresh, interned) SHA. -/
def Repo.commit (r : Repo) (cd : CommitData) : Sha × Repo :=
  (r.next, ⟨(r.next, cd) :: r.table, r.next + 1⟩)

/-- `CommitData.is_nochange` from `stgit/lib/git.py`:
`len(parents) == 1 and tree == parent.data.tree`. -/
def isNochange (r : Repo) (cd : CommitData) : Prop :=
  cd.parents.length = 1 ∧ cd.tree = (r.dataOf cd.parent).tree

instance (r : Repo) (cd : CommitData) : Decidable (isNochange r cd) := by
  unfold isNochange; infer_instance

/-! ### Index-only three-way merge (`Index.merge`, `stgit/lib/git.py`) -/

/-- Outcome of `Index.merge`: the merge result (`None` on clean failure), the
tree now held in the index, and the number of `read_tree` invocations the
call performed (recorded so that the no-`read-tree` claims are statable). -/
structure MergeOut where
  result : Option Sha
  current : Option Sha
  readTreeCalls : Nat
deriving DecidableEq, Repr

/-- `Index.merge(base, ours, theirs, current)` from `stgit/lib/git.py`.
The non-trivial arm (`apply_treediff` then `write_tree`) is abstracted by the
oracle `applyDiff base ours theirs`, returning the merged tree on success and
`none` if git's `apply`/`write-tree` step fails (`MergeException`). -/
def indexMerge (applyDiff : Sha → Sha → Sha → Option Sha)
    (base ours theirs : Sha) (current : Option Sha) : MergeOut :=
  if base = ours then ⟨some theirs, current, 0⟩
  else if base = theirs then ⟨some ours, current, 0⟩
  else if ours = theirs then ⟨some ours, current, 0⟩
  else
    let p : Sha × Sha := if current = some theirs then (theirs, ours) else (ours, theirs)
    let rt : Nat := if current = some p.1 then 0 else 1
    match applyDiff base p.1 p.2 with
    | some res => ⟨some res, some res, rt⟩
    | none => ⟨none, some p.1, rt⟩

/-! ### Exit codes (`stgit/utils.py`) -/

/-- `STGIT_SUCCESS` from `stgit/utils.py`. -/
def STGIT_SUCCESS : Nat := 0

/-- `STGIT_CONFLICT` from `stgit/utils.py`. -/
def STGIT_CONFLICT : Nat := 3

/-! ### The on-disk stack and the staged transaction state -/

/-- The persistent (on-disk) collaborator state seen by a transaction.
Modelled from the spec: the stack model (`stgit/lib/stack.py`) and the log
writer are not part of the provided sources, so the ordered patch lists, the
patch-name-to-commit map, `base`, the branch head ref, the appended log
entries and the trees checked out into the worktree are modelled as explicit
state following spec sections 4.5, 4.7 and 4.6.4. -/
structure Disk where
  applied : List String
  unapplied : List String
  hidden : List String
  patches : List (String × Sha)
  base : Sha
  head : Sha
  logEntries : List String
  checkouts : List Sha
deriving DecidableEq, Repr

/-- `stack.patches.exists(pn)`. -/
def Disk.patchExists (d : Disk) (pn : String) : Bool :=
  (d.patches.lookup pn).isSome

/-- Modelled from the spec: `stack.head_top_equal()` (stack model, not in the
provided sources) — `branch.head == applied[-1].commit` when `applied` is
non-empty, else `branch.head == base`. -/
def Disk.head_top_equal (d : Disk) : Bool :=
  match d.applied.getLast? with
  | some pn => d.head = (d.patches.lookup pn).getD 0
  | none => d.head = d.base

/-- The deferred `conflicting_push` update of `StackTransaction.push_patch`:
the closure captures the pushed patch name and the rewritten commit (if a new
commit object was created). -/
structure Pending where
  pn : String
  comm : Option Sha
deriving DecidableEq, Repr

/-- The staged state of a `StackTransaction` (`stgit/lib/transaction.py`).
`patchesOv` is the override map `_TransPatchMap`: an entry `(pn, some c)`
records a new commit for `pn`, `(pn, none)` is a tombstone (deletion); absent
names fall through to the on-disk stack. -/
structure StackTransaction where
  msg : String
  applied : List String
  unapplied : List String
  hidden : List String
  patchesOv : List (String × Option Sha)
  conflictingPush : Option Pending
  error : Option String
  currentTree : Sha
  base : Sha
  discardChanges : Bool
  badHead : Option Sha
  allowConflicts : Bool
  tempIndexTree : Option Sha
deriving DecidableEq, Repr

/-- Override-map update (`self.patches[pn] = v`). -/
def ovSet (m : List (String × Option Sha)) (pn : String) (v : Option Sha) :
    List (String × Option Sha) :=
  (pn, v) :: m.filter (fun e => e.1 != pn)

/-- `_TransPatchMap.__getitem__`: the override map with fall-through to the
stack's patch map.  A tombstone yields `none` (Python's `None`). -/
def StackTransaction.patchGet (t : StackTransaction) (d : Disk) (pn : String) :
    Option Sha :=
  match t.patchesOv.lookup pn with
  | some v => v
  | none => d.patches.lookup pn

/-- `StackTransaction.top`: the commit of the topmost staged applied patch,
or `base` when no patch is applied. -/
def StackTransaction.top (t : StackTransaction) (d : Disk) : Sha :=
  match t.applied.getLast? with
  | some pn => (t.patchGet d pn).getD 0
  | none => t.base

/-- `StackTransaction.head` (the getter): `bad_head` if set, else `top`. -/
def StackTransaction.headC (t : StackTransaction) (d : Disk) : Sha :=
  t.badHead.getD (t.top d)

/-- `StackTransaction.__init__`.  Unless `allow_bad_head`, the constructor
asserts `stack.head_top_equal()`; on failure it prints the HEAD/top
divergence error and aborts with `TransactionException` (modelled as the
`Except.error` carrying the exception message), leaving the stack untouched. -/
def mkTransaction (d : Disk) (r : Repo) (msg : String)
    (discardChanges allowConflicts allowBadHead : Bool) :
    Except String StackTransaction :=
  if ¬allowBadHead ∧ d.head_top_equal = false then
    .error "Command aborted (all changes rolled back)"
  else
    .ok { msg := msg
          applied := d.applied
          unapplied := d.unapplied
          hidden := d.hidden
          patchesOv := []
          conflictingPush := none
          error := none
          currentTree := (r.dataOf d.head).tree
          base := d.base
          discardChanges := discardChanges
          badHead := none
          allowConflicts := allowConflicts
          tempIndexTree := none }

/-! ### `pop_patches` and `delete_patches` -/

/-- The scan-and-truncate loop of `pop_patches`/`delete_patches`: walk
`applied` from the bottom; at the first name satisfying `p`, split off the
whole suffix.  Returns (kept prefix, popped suffix). -/
def popSplit (p : String → Bool) : List String → List String × List String
  | [] => ([], [])
  | pn :: rest =>
    if p pn then ([], pn :: rest)
    else
      let s := popSplit p rest
      (pn :: s.1, s.2)

/-- `StackTransaction.pop_patches(p)`: pop every applied patch satisfying
`p` (and everything above the lowest such patch); the popped suffix is
prepended to `unapplied`, non-matching patches first.  Returns the new
state together with the list of incidentally popped patches. -/
def StackTransaction.pop_patches (t : StackTransaction) (p : String → Bool) :
    StackTransaction × List String :=
  let s := popSplit p t.applied
  let popped := s.2
  let popped1 := popped.filter (fun pn => !(p pn))
  let popped2 := popped.filter p
  ({ t with applied := s.1, unapplied := popped1 ++ popped2 ++ t.unapplied },
   popped1)

/-- The tombstoning loop at the end of `delete_patches`: for every name in
the pre-mutation list of all patches that satisfies `p`, record a tombstone
in the override map. -/
def tombAll (p : String → Bool) : List String → StackTransaction → StackTransaction
  | [], t => t
  | pn :: rest, t =>
    tombAll p rest
      (if p pn then { t with patchesOv := ovSet t.patchesOv pn none } else t)

/-- `StackTransaction.delete_patches(p)`: pop as `pop_patches`, but matching
patches are dropped from all three lists and tombstoned in the override map;
only the non-matching popped patches move to `unapplied`. -/
def StackTransaction.delete_patches (t : StackTransaction) (p : String → Bool) :
    StackTransaction × List String :=
  let allPatches := t.applied ++ t.unapplied ++ t.hidden
  let s := popSplit p t.applied
  let popped := s.2.filter (fun pn => !(p pn))
  let t1 := { t with
    applied := s.1
    unapplied := popped ++ t.unapplied.filter (fun pn => !(p pn))
    hidden := t.hidden.filter (fun pn => !(p pn)) }
  (tombAll p allPatches t1, popped)

/-! ### `push_patch` -/

/-- The combined world a transaction acts on: staged transaction state, the
on-disk collaborator state, and the repository object store. -/
structure World where
  t : StackTransaction
  d : Disk
  r : Repo
deriving DecidableEq, Repr

/-- Outcome of the index-and-worktree three-way merge `iw.merge` followed by
`iw.index.write_tree()` (`IndexAndWorktree.merge`, `stgit/lib/git.py`):
either a clean merge producing a tree, a `MergeConflictException`, or some
other `MergeException` carrying a message. -/
inductive IwMerge
  | clean (tree : Sha)
  | conflict
  | mergeErr (msg : String)
deriving DecidableEq, Repr

/-- The environment of external collaborators a transaction step consults:
the temp-index merge oracle (see `indexMerge`), whether an index-and-worktree
was supplied (`iw`), whether `read-tree -u -m` would fail on a dirty worktree
(`checkoutFails`), whether the worktree index currently has unmerged entries
(`iwConflicts`), and the outcome of a worktree three-way merge (`iwMerge`). -/
structure Env where
  applyDiff : Sha → Sha → Sha → Option Sha
  iw : Bool
  checkoutFails : Bool
  iwConflicts : Bool
  iwMerge : IwMerge

/-- Outcome of `StackTransaction.__checkout`. -/
inductive CoRes
  | ok (w : World)
  /-- `CheckoutException` raised by `iw.checkout`. -/
  | coFail (w : World)
  /-- `TransactionException` raised via `StackTransaction.__abort` (HEAD/top
  divergence, or unresolved conflicts that the transaction does not allow). -/
  | abortC (w : World)
deriving DecidableEq, Repr

/-- `StackTransaction.__checkout(tree, iw, allow_bad_head)`.  A performed
checkout appends the target tree to the `checkouts` trace and updates the
transaction's `current_tree`. -/
def checkoutStep (e : Env) (w : World) (tree : Sha) (iwPresent : Bool)
    (allowBadHead : Bool) : CoRes :=
  if ¬allowBadHead ∧ w.d.head_top_equal = false then .abortC w
  else if w.t.currentTree = tree ∧ w.t.discardChanges = false then
    if w.t.allowConflicts = true ∨ iwPresent = false ∨ e.iwConflicts = false then
      .ok w
    else .abortC w
  else if w.t.discardChanges then
    .ok { w with
      d := { w.d with checkouts := w.d.checkouts ++ [tree] }
      t := { w.t with currentTree := tree } }
  else if e.checkoutFails then .coFail w
  else
    .ok { w with
      d := { w.d with checkouts := w.d.checkouts ++ [tree] }
      t := { w.t with currentTree := tree } }

/-- Outcome of `push_patch`: successful completion (with the suffix of the
`Pushed <pn><suffix>` message), a `TransactionHalted` (with the halt message
and, when the `Pushed` line was already printed, its suffix), or a
propagating `TransactionException`. -/
inductive PushRes
  | ok (w : World) (suffix : String)
  | halted (w : World) (msg : String) (printed : Option String)
  | abortP (w : World)
deriving DecidableEq, Repr

/-- The world carried by a `push_patch` outcome. -/
def PushRes.world : PushRes → World
  | .ok w _ => w
  | .halted w _ _ => w
  | .abortP w => w

/-- Whether a `push_patch` outcome is a normal completion. -/
def PushRes.isOk : PushRes → Bool
  | .ok _ _ => true
  | _ => false

/-- `StackTransaction.__halt(msg)`: set the error field and raise
`TransactionHalted`. -/
def haltW (w : World) (msg : String) (printed : Option String) : PushRes :=
  .halted { w with t := { w.t with error := some msg } } msg printed

/-- The original commit data of the patch being pushed:
`self.patches[pn].data`. -/
def origCdOf (w : World) (pn : String) : CommitData :=
  w.r.dataOf ((w.t.patchGet w.d pn).getD 0)

/-- The three trees fed to the temp-index merge in `push_patch`:
`base = oldparent.data.tree`, `ours = cd.parent.data.tree` (the new parent,
i.e. the transaction's top), `theirs = cd.tree`. -/
def pushBases (w : World) (pn : String) : Sha × Sha × Sha :=
  let cd0 := (origCdOf w pn).set_committer none
  ((w.r.dataOf cd0.parent).tree, (w.r.dataOf (w.t.top w.d)).tree, cd0.tree)

/-- `ours` of the `push_patch` merge: the tree of the new parent below. -/
def oursOf (w : World) (pn : String) : Sha := (pushBases w pn).2.1

/-- `theirs` of the `push_patch` merge: the tree of the patch being pushed. -/
def theirsOf (w : World) (pn : String) : Sha := (pushBases w pn).2.2

/-- The temp-index merge performed by `push_patch`. -/
def mergeOut (e : Env) (w : World) (pn : String) : MergeOut :=
  indexMerge e.applyDiff (pushBases w pn).1 (oursOf w pn) (theirsOf w pn)
    w.t.tempIndexTree

/-- The changed-field test of `push_patch` (line 321 of
`stgit/lib/transaction.py`): `any(getattr(cd, a) != getattr(orig_cd, a) for a
in ['parent', 'tree', 'author', 'message'])`. -/
def cdChanged (cd origCd : CommitData) : Prop :=
  cd.parent ≠ origCd.parent ∨ cd.tree ≠ origCd.tree ∨
    cd.author ≠ origCd.author ∨ cd.message ≠ origCd.message

instance (cd origCd : CommitData) : Decidable (cdChanged cd origCd) := by
  unfold cdChanged; infer_instance

/-- The `update()` closure of `push_patch`: record the new commit (if one was
created) in the override map, move the patch out of `unapplied` (or `hidden`)
and append it to `applied`. -/
def applyUpdate (t : StackTransaction) (u : Pending) : StackTransaction :=
  let t1 :=
    match u.comm with
    | some c => { t with patchesOv := ovSet t.patchesOv u.pn (some c) }
    | none => t
  if u.pn ∈ t1.hidden then
    { t1 with hidden := t1.hidden.erase u.pn, applied := t1.applied ++ [u.pn] }
  else
    { t1 with unapplied := t1.unapplied.erase u.pn, applied := t1.applied ++ [u.pn] }

/-- The tail of `push_patch` from `cd = cd.set_tree(tree)` on (lines 320-349
of `stgit/lib/transaction.py`): create a commit object iff one of
`{parent, tree, author, message}` changed, compute the printed suffix, and
either defer the patch-list update into `conflicting_push` and halt with
"Merge conflict" (on a worktree merge conflict) or apply it immediately. -/
def finishPush (w : World) (pn : String) (cd1 origCd : CommitData) (tree : Sha)
    (mergeConflict : Bool) (s : String) : PushRes :=
  let cd := cd1.set_tree tree
  let cr : Option Sha × Repo × String :=
    if cdChanged cd origCd then
      let p := w.r.commit cd
      (some p.1, p.2, s)
    else (none, w.r, " (unmodified)")
  let comm := cr.1
  let r1 := cr.2.1
  let s1 := if mergeConflict = false ∧ isNochange r1 cd then " (empty)" else cr.2.2
  let w1 := { w with r := r1 }
  if mergeConflict then
    .halted
      { w1 with t := { w1.t with
          allowConflicts := true
          conflictingPush := some ⟨pn, comm⟩
          error := some "Merge conflict" } }
      "Merge conflict" (some s1)
  else
    .ok { w1 with t := applyUpdate w1.t ⟨pn, comm⟩ } s1

/-- `StackTransaction.push_patch(pn, iw)` from `stgit/lib/transaction.py`. -/
def pushPatch (e : Env) (w : World) (pn : String) : PushRes :=
  let origCd := origCdOf w pn
  let cd1 := (origCd.set_committer none).set_parent (w.t.top w.d)
  let ours := oursOf w pn
  let m := mergeOut e w pn
  let wA : World := { w with t := { w.t with tempIndexTree := m.current } }
  match m.result with
  | some tr => finishPush wA pn cd1 origCd tr false ""
  | none =>
    if e.iw = false then
      haltW wA (pn ++ " does not apply cleanly") none
    else
      match checkoutStep e wA ours true false with
      | .abortC w' => .abortP w'
      | .coFail w' => haltW w' "Index/worktree dirty" none
      | .ok w' =>
        match e.iwMerge with
        | .clean tr =>
          finishPush { w' with t := { w'.t with currentTree := tr } }
            pn cd1 origCd tr false " (modified)"
        | .conflict => finishPush w' pn cd1 origCd ours true " (conflict)"
        | .mergeErr msg => haltW w' msg none

/-! ### `reorder_patches` -/

/-- Length of the common prefix of two lists
(`it.takewhile(lambda (a, b): a == b, zip(...))` in the source). -/
def commonLen : List String → List String → Nat
  | a :: as_, b :: bs => if a = b then commonLen as_ bs + 1 else 0
  | _, _ => 0

/-- Python `set(a) == set(b)`. -/
def listSetEq (a b : List String) : Bool :=
  a.all (fun x => b.contains x) && b.all (fun x => a.contains x)

/-- Outcome of `reorder_patches`: completion, a propagating
`TransactionHalted` from one of its pushes, a propagating
`TransactionException`, or an `assert` failure. -/
inductive ReorderRes
  | ok (w : World)
  | halted (w : World) (msg : String)
  | abortR (w : World)
  | assertFail (w : World)
deriving DecidableEq, Repr

/-- The world carried by a `reorder_patches` outcome. -/
def ReorderRes.world : ReorderRes → World
  | .ok w => w
  | .halted w _ => w
  | .abortR w => w
  | .assertFail w => w

/-- The push loop of `reorder_patches`: push the named patches in order,
propagating any halt or abort. -/
def pushLoop (e : Env) (w : World) : List String → ReorderRes
  | [] => .ok w
  | pn :: rest =>
    match pushPatch e w pn with
    | .ok w' _ => pushLoop e w' rest
    | .halted w' m _ => .halted w' m
    | .abortP w' => .abortR w'

/-- `StackTransaction.reorder_patches(applied, unapplied, hidden, iw)`:
pop everything above the common applied prefix, push the requested patches in
order, assert that the reached state matches the request, then install the
requested `unapplied` and `hidden` orders. -/
def reorder_patches (e : Env) (w : World) (ap un hi : List String) : ReorderRes :=
  let common := commonLen w.t.applied ap
  let toPop := w.t.applied.drop common
  let pr := w.t.pop_patches (fun pn => toPop.contains pn)
  let w1 := { w with t := pr.1 }
  match pushLoop e w1 (ap.drop common) with
  | .ok w2 =>
    if w2.t.applied = ap ∧ listSetEq (w2.t.unapplied ++ w2.t.hidden) (un ++ hi) then
      .ok { w2 with t := { w2.t with unapplied := un, hidden := hi } }
    else .assertFail w2
  | r => r

/-! ### Terminal `run` -/

/-- `StackTransaction.__check_consistency`: every override entry either
tombstones an existing patch or targets a name in the staged lists. -/
def StackTransaction.consistent (t : StackTransaction) (d : Disk) : Bool :=
  t.patchesOv.all fun e =>
    match e.2 with
    | none => d.patchExists e.1
    | some _ => (t.applied ++ t.unapplied ++ t.hidden).contains e.1

/-- One patch-metadata writeback (`p.delete()` / `p.set_commit(commit,msg)` /
`patches.new(pn, commit, msg)`).  `new` with a tombstone is unreachable under
`__check_consistency` and is modelled as a no-op. -/
def writeOne (d : Disk) (pn : String) (c : Option Sha) : Disk :=
  if d.patchExists pn then
    match c with
    | none => { d with patches := d.patches.filter (fun e => e.1 != pn) }
    | some sha => { d with patches := (pn, sha) :: d.patches.filter (fun e => e.1 != pn) }
  else
    match c with
    | some sha => { d with patches := (pn, sha) :: d.patches }
    | none => d

/-- The loop over the override map in `run`'s `write(msg)`. -/
def writePatchList : List (String × Option Sha) → Disk → Disk
  | [], d => d
  | (pn, c) :: rest, d => writePatchList rest (writeOne d pn c)

/-- `write(msg)` inside `run`: write back every override entry, install the
three staged lists as the stack's patch order, and append a log entry
(`log.log_entry(stack, msg)`) under `msg`. -/
def writePass (w : World) (msg : String) : World :=
  let d1 := writePatchList w.t.patchesOv w.d
  { w with d := { d1 with
      applied := w.t.applied
      unapplied := w.t.unapplied
      hidden := w.t.hidden
      logEntries := d1.logEntries ++ [msg] } }

/-- The conflict-continuation pass of `run`: reset the override map
(`self.__patches = _TransPatchMap(self.__stack)`), invoke the deferred
`conflicting_push` update, and write back under the `" (CONFLICT)"`-suffixed
message. -/
def conflictPass (w2 : World) (u : Pending) : World :=
  writePass { w2 with t := applyUpdate { w2.t with patchesOv := [] } u }
    (w2.t.msg ++ " (CONFLICT)")

/-- The tail of `run` after the branch head has been set: the first
writeback-plus-log pass, then — when `conflicting_push` is set — the
conflict continuation; finally the exit code. -/
def runRest (w : World) : World × Nat :=
  let w2 := writePass w w.t.msg
  let w3 :=
    match w2.t.conflictingPush with
    | none => w2
    | some u => conflictPass w2 u
  (w3, if w3.t.error.isSome then STGIT_CONFLICT else STGIT_SUCCESS)

/-- `self.abort(iw)`: restore the worktree to the stack head's tree, allowing
a divergent head.  Whatever the inner checkout does, the surrounding
transaction exception propagates. -/
def abortTrans (e : Env) (w : World) : World :=
  match checkoutStep e w ((w.r.dataOf w.d.head).tree) true true with
  | .ok w' => w'
  | .coFail w' => w'
  | .abortC w' => w'

/-- Outcome of the head-setting phase of `run`. -/
inductive HeadRes
  | ok (w : World)
  | abortH (w : World)
deriving DecidableEq, Repr

/-- The head-setting phase of `run`: when `set_head`, optionally check out
the new head's tree (aborting the transaction if the checkout fails), then
advance the branch head ref (`stack.set_head(new_head, msg)`). -/
def headStep (e : Env) (w : World) (newHead : Sha) (setHead allowBadHead : Bool) :
    HeadRes :=
  if setHead then
    if e.iw then
      match checkoutStep e w ((w.r.dataOf newHead).tree) true allowBadHead with
      | .ok w' => .ok { w' with d := { w'.d with head := newHead } }
      | .coFail w' => .abortH (abortTrans e w')
      | .abortC w' => .abortH w'
    else .ok { w with d := { w.d with head := newHead } }
  else .ok w

/-- Outcome of `StackTransaction.run`: the exit code on completion, a
propagating `TransactionException`, or an `assert` failure in
`__check_consistency`. -/
inductive RunRes
  | ok (w : World) (code : Nat)
  | abortRn (w : World)
  | assertFail (w : World)
deriving DecidableEq, Repr

/-- `StackTransaction.run(iw, set_head, allow_bad_head)` from
`stgit/lib/transaction.py` (the `print_current_patch` reporting only prints
and is omitted; `log.log_external_mods` is an opaque pre-write audit hook). -/
def StackTransaction.run (e : Env) (w : World) (setHead allowBadHead : Bool) :
    RunRes :=
  if w.t.consistent w.d = false then .assertFail w
  else
    let newHead := w.t.headC w.d
    match headStep e w newHead setHead allowBadHead with
    | .ok w1 =>
      let p := runRest w1
      .ok p.1 p.2
    | .abortH wx => .abortRn wx

/-! ### The stack invariant -/

/-- The concatenation of the three staged patch lists
(`StackTransaction.all_patches`). -/
def allNames (t : StackTransaction) : List String :=
  t.applied ++ t.unapplied ++ t.hidden

/-- Whether a patch name is live in the staged state: overridden with a
commit, not tombstoned, or (absent from the override map) present in the
stack's patch map. -/
def liveB (t : StackTransaction) (dp : List (String × Sha)) (pn : String) :
    Bool :=
  match t.patchesOv.lookup pn with
  | some (some _) => true
  | some none => false
  | none => (dp.lookup pn).isSome

/-- The stack invariant as the claim states it: `applied`, `unapplied`,
`hidden` are pairwise disjoint and their union is the set of live patch
names. -/
def stackInv (t : StackTransaction) (dp : List (String × Sha)) : Prop :=
  (∀ pn, pn ∈ allNames t ↔ liveB t dp pn = true) ∧
  (∀ pn, ¬(pn ∈ t.applied ∧ pn ∈ t.unapplied)) ∧
  (∀ pn, ¬(pn ∈ t.applied ∧ pn ∈ t.hidden)) ∧
  (∀ pn, ¬(pn ∈ t.unapplied ∧ pn ∈ t.hidden))

/-- The strengthened stack invariant: additionally each list is
duplicate-free (equivalently, the concatenation of the three lists has no
duplicate, which implies pairwise disjointness). -/
def stackInvND (t : StackTransaction) (dp : List (String × Sha)) : Prop :=
  (allNames t).Nodup ∧ (∀ pn, pn ∈ allNames t ↔ liveB t dp pn = true)

/-! ### Concrete instances used by witnesses and counterexamples -/

/-- A merge oracle on which `apply_treediff` always fails. -/
def noDiff : Sha → Sha → Sha → Option Sha := fun _ _ _ => none

/-- A sample author. -/
def pA : Person := ⟨"A", "a@x", "0 +0000"⟩

/-- Sample repository: commit 0 (base, tree 2), commit 1 (old parent of the
sample patch, tree 4), commit 10 (the patch `b`, tree 3, parent 1). -/
def rS : Repo :=
  ⟨[(0, ⟨2, [], pA, some pA, "base"⟩),
    (1, ⟨4, [0], pA, some pA, "old parent"⟩),
    (10, ⟨3, [1], pA, some pA, "patch b"⟩)], 100⟩

/-- Sample on-disk stack: no patch applied, patch `b` unapplied. -/
def dS : Disk := ⟨[], ["b"], [], [("b", 10)], 0, 0, [], []⟩

/-- Sample staged transaction over `dS`. -/
def tS : StackTransaction :=
  ⟨"msg", [], ["b"], [], [], none, none, 2, 0, false, none, false, none⟩

/-- Sample world for the conflicting-push scenario. -/
def wS : World := ⟨tS, dS, rS⟩

/-- Environment with a worktree whose three-way merge conflicts. -/
def eConf : Env := ⟨noDiff, true, false, false, .conflict⟩

/-- Environment without a worktree. -/
def eNoIw : Env := ⟨noDiff, false, false, false, .conflict⟩

/-- Repository for the empty-push scenario: the transaction top (commit 0)
has tree 2; the patch `b` (commit 10) also has tree 2 but parent 1. -/
def rE : Repo :=
  ⟨[(0, ⟨2, [], pA, some pA, "base"⟩),
    (1, ⟨5, [0], pA, some pA, "old parent"⟩),
    (10, ⟨2, [1], pA, some pA, "patch b"⟩)], 100⟩

/-- World for the empty-push counterexample: pushing `b` onto commit 0. -/
def wE : World :=
  ⟨⟨"msg", [], ["b"], [], [], none, none, 2, 0, false, none, false, none⟩,
   ⟨[], ["b"], [], [("b", 10)], 0, 0, [], []⟩, rE⟩

/-- Repository for the unchanged-push witness: the patch `b` (commit 10)
already has parent 0 (the transaction top) and tree 2 = the top's tree. -/
def rU : Repo :=
  ⟨[(0, ⟨2, [], pA, some pA, "base"⟩),
    (10, ⟨2, [0], pA, some pA, "patch b"⟩)], 100⟩

/-- World for the unchanged-push witness. -/
def wU : World :=
  ⟨⟨"msg", [], ["b"], [], [], none, none, 2, 0, false, none, false, none⟩,
   ⟨[], ["b"], [], [("b", 10)], 0, 0, [], []⟩, rU⟩

/-- World with a pending conflicting push, as left behind by a conflicted
`push_patch`, used to exercise `run`'s conflict continuation. -/
def wCont : World :=
  ⟨⟨"msg", ["a"], [], [], [], some ⟨"p", some 50⟩, some "Merge conflict", 2, 0,
    false, none, true, none⟩,
   ⟨["a"], ["p"], [], [("a", 7), ("p", 9)], 0, 7, [], []⟩,
   ⟨[(7, ⟨2, [0], pA, some pA, "a"⟩), (50, ⟨2, [7], pA, none, "p"⟩)], 100⟩⟩

/-- World for the duplicate-name counterexample: the patch name `p` occurs
twice in `hidden`; the three lists are nevertheless pairwise disjoint. -/
def wDup : World :=
  ⟨⟨"msg", [], [], ["p", "p"], [], none, none, 2, 0, false, none, false, none⟩,
   ⟨[], [], ["p", "p"], [("p", 10)], 0, 0, [], []⟩,
   ⟨[(0, ⟨2, [], pA, some pA, "base"⟩),
     (10, ⟨2, [0], pA, some pA, "patch p"⟩)], 100⟩⟩

end StGit

namespace StGit

/-! ## Theorems -/

/-- Helper: the scan loop of `pop_patches` keeps the prefix before the first
match and pops the suffix from the first match on. -/
theorem popSplit_eq (p : String → Bool) (l : List String) :
    popSplit p l = (l.take (l.findIdx p), l.drop (l.findIdx p)) := by
  induction l with
  | nil => simp [popSplit]
  | cons pn rest ih =>
    by_cases h : p pn = true
    · simp [popSplit, h, List.findIdx_cons]
    · simp only [popSplit, Bool.not_eq_true] at h ⊢
      simp [h, ih, List.findIdx_cons]

/-- Helper: if no element matches, the scan finds nothing. -/
theorem findIdx_eq_length_of_none {p : String → Bool} {l : List String}
    (h : ∀ pn ∈ l, p pn = false) : l.findIdx p = l.length := by
  induction l with
  | nil => simp
  | cons pn rest ih =>
    have hp := h pn (by simp)
    simp [List.findIdx_cons, hp, ih fun q hq => h q (by simp [hq])]

/-- C3: `pop_patches(p)` finds the lowest applied index whose patch satisfies
`p`, truncates `applied` there, prepends the popped suffix to `unapplied`
with the non-matching popped patches first and the matching ones second (each
group in stack order), leaves `hidden` and everything else unchanged, and
returns the non-matching popped patches; when no applied patch satisfies `p`
(e.g. the constant-false predicate) the state is returned unchanged with an
empty result.  The operation is a total function: it never fails. -/
theorem pop_patches_spec (t : StackTransaction) (p : String → Bool) :
    t.pop_patches p =
      ({ t with
          applied := t.applied.take (t.applied.findIdx p)
          unapplied :=
            (t.applied.drop (t.applied.findIdx p)).filter (fun pn => !(p pn)) ++
              (t.applied.drop (t.applied.findIdx p)).filter p ++ t.unapplied },
       (t.applied.drop (t.applied.findIdx p)).filter (fun pn => !(p pn)))
    ∧ ((∀ pn ∈ t.applied, p pn = false) → t.pop_patches p = (t, [])) := by
  constructor
  · simp [StackTransaction.pop_patches, popSplit_eq]
  · intro h
    simp [StackTransaction.pop_patches, popSplit_eq,
      findIdx_eq_length_of_none h]

/-- Witness for C3 at a concrete state and the constant-false predicate. -/
theorem pop_patches_spec_witness :
    tS.pop_patches (fun _ => false) = (tS, []) :=
  (pop_patches_spec tS (fun _ => false)).2 (by intro pn _; rfl)

/-- Helper: first trivial case of `Index.merge`. -/
theorem indexMerge_t1 {g : Sha → Sha → Sha → Option Sha} {b o th : Sha}
    {c : Option Sha} (h : b = o) : indexMerge g b o th c = ⟨some th, c, 0⟩ := by
  simp [indexMerge, h]

/-- Helper: second trivial case of `Index.merge`. -/
theorem indexMerge_t2 {g : Sha → Sha → Sha → Option Sha} {b o th : Sha}
    {c : Option Sha} (h : b = th) : indexMerge g b o th c = ⟨some o, c, 0⟩ := by
  subst h
  by_cases hbo : b = o
  · simp [indexMerge, hbo]
  · simp [indexMerge, hbo]

/-- Helper: third trivial case of `Index.merge`. -/
theorem indexMerge_t3 {g : Sha → Sha → Sha → Option Sha} {b o th : Sha}
    {c : Option Sha} (h : o = th) : indexMerge g b o th c = ⟨some o, c, 0⟩ := by
  subst h
  by_cases hbo : b = o
  · simp [indexMerge, hbo]
  · simp [indexMerge, hbo]

/-- C4: the trivial cases of `Index.merge`: `base == ours` yields `theirs`,
`base == theirs` yields `ours`, `ours == theirs` yields `ours`; in every
trivial case the index tree hint is passed through unchanged and `read-tree`
is not invoked (0 `read_tree` calls) — in particular a merge with
`ours == theirs` never invokes `read-tree`. -/
theorem merge_trivial_cases (g : Sha → Sha → Sha → Option Sha)
    (b o th : Sha) (c : Option Sha) :
    (b = o → indexMerge g b o th c = ⟨some th, c, 0⟩) ∧
    (b = th → indexMerge g b o th c = ⟨some o, c, 0⟩) ∧
    (o = th → indexMerge g b o th c = ⟨some o, c, 0⟩) :=
  ⟨fun h => indexMerge_t1 h, fun h => indexMerge_t2 h, fun h => indexMerge_t3 h⟩

/-- Witness for C4 at concrete trees. -/
theorem merge_trivial_cases_witness :
    indexMerge noDiff 1 1 2 none = ⟨some 2, none, 0⟩ ∧
    indexMerge noDiff 5 7 7 (some 9) = ⟨some 7, some 9, 0⟩ :=
  ⟨(merge_trivial_cases noDiff 1 1 2 none).1 rfl,
   (merge_trivial_cases noDiff 5 7 7 (some 9)).2.2 rfl⟩

/-- C6: constructing a `StackTransaction` with `allow_bad_head` false fails
with the `TransactionException` (after surfacing the HEAD/top divergence
error) exactly when `stack.head_top_equal()` is false; with `allow_bad_head`
true, or when head and top agree, construction succeeds.  The constructor
never touches the stack (it only reads it). -/
theorem mkTransaction_head_top (d : Disk) (r : Repo) (msg : String)
    (dc ac abh : Bool) :
    (abh = false ∧ d.head_top_equal = false →
      mkTransaction d r msg dc ac abh =
        .error "Command aborted (all changes rolled back)") ∧
    (abh = true ∨ d.head_top_equal = true →
      ∃ t, mkTransaction d r msg dc ac abh = .ok t) := by
  constructor
  · rintro ⟨h1, h2⟩
    simp [mkTransaction, h1, h2]
  · rintro (h | h) <;>
      exact ⟨_, by rw [mkTransaction, if_neg (by simp [h])]⟩

/-- Witness for C6: a diverged head is rejected without `allow_bad_head` and
accepted with it. -/
theorem mkTransaction_head_top_witness :
    mkTransaction { dS with head := 42 } rS "m" false false false =
      .error "Command aborted (all changes rolled back)" ∧
    ∃ t, mkTransaction { dS with head := 42 } rS "m" false false true = .ok t :=
  ⟨(mkTransaction_head_top { dS with head := 42 } rS "m" false false false).1
      ⟨rfl, by decide⟩,
   (mkTransaction_head_top { dS with head := 42 } rS "m" false false true).2
      (Or.inl rfl)⟩

/-- Helper: a failed index-only merge means all three trivial cases were
ruled out. -/
theorem indexMerge_none_ne {g : Sha → Sha → Sha → Option Sha}
    {b o th : Sha} {c : Option Sha}
    (h : (indexMerge g b o th c).result = none) : b ≠ o ∧ b ≠ th ∧ o ≠ th := by
  unfold indexMerge at h
  split_ifs at h <;> simp_all

/-- Helper: a successful `__checkout` changes at most the current tree and
the checkout trace. -/
theorem checkoutStep_ok_shape {e : Env} {w : World} {tree : Sha}
    {iwp abh : Bool} {w' : World}
    (h : checkoutStep e w tree iwp abh = .ok w') :
    ∃ ct co, w' = { w with
      t := { w.t with currentTree := ct }
      d := { w.d with checkouts := co } } := by
  unfold checkoutStep at h
  split_ifs at h <;> injection h with h <;> subst h
  · exact ⟨w.t.currentTree, w.d.checkouts, rfl⟩
  · exact ⟨tree, w.d.checkouts ++ [tree], rfl⟩
  · exact ⟨tree, w.d.checkouts ++ [tree], rfl⟩

/-- Helper: the commit just written by `repository.commit` has the data it
was given. -/
theorem dataOf_commit_self (r : Repo) (cd : CommitData) :
    ((r.commit cd).2).dataOf (r.commit cd).1 = cd := by
  simp [Repo.commit, Repo.dataOf, List.lookup_cons]

/-- C5: when the temp-index merge of `push_patch(pn)` fails and no
index-and-worktree was provided, the transaction halts with
`"<pn> does not apply cleanly"`; the staged `applied`, `unapplied` and
`hidden` lists, the override map, the on-disk stack and the repository are
exactly as before the call (only the cached temp-index tree hint and the
transaction's error field change). -/
theorem push_patch_no_apply_clean (e : Env) (w : World) (pn : String)
    (h1 : e.iw = false) (h2 : (mergeOut e w pn).result = none) :
    ∃ wh, pushPatch e w pn =
        .halted wh (pn ++ " does not apply cleanly") none ∧
      wh.t.applied = w.t.applied ∧ wh.t.unapplied = w.t.unapplied ∧
      wh.t.hidden = w.t.hidden ∧ wh.t.patchesOv = w.t.patchesOv ∧
      wh.d = w.d ∧ wh.r = w.r := by
  refine ⟨{ w with t := { w.t with
      tempIndexTree := (mergeOut e w pn).current
      error := some (pn ++ " does not apply cleanly") } },
    ?_, rfl, rfl, rfl, rfl, rfl, rfl⟩
  simp [pushPatch, h1, h2, haltW]

/-- Witness for C5 at a concrete world whose patch does not apply. -/
theorem push_patch_no_apply_clean_witness :
    ∃ wh, pushPatch eNoIw wS "b" =
        .halted wh ("b" ++ " does not apply cleanly") none ∧
      wh.t.applied = wS.t.applied ∧ wh.t.unapplied = wS.t.unapplied ∧
      wh.t.hidden = wS.t.hidden ∧ wh.t.patchesOv = wS.t.patchesOv ∧
      wh.d = wS.d ∧ wh.r = wS.r :=
  push_patch_no_apply_clean eNoIw wS "b" rfl (by decide)

/-- C2: when `push_patch(pn)` with an index-and-worktree reaches a worktree
merge conflict, the rewritten patch commit's tree is `ours` — the new
parent's tree, not a merged tree —, `allow_conflicts` becomes unconditionally
true, the move of the patch into `applied` and the recording of its new
commit are deferred into `conflicting_push` (the staged lists and override
map are untouched), and the transaction halts with "Merge conflict" (after
printing the patch as "(conflict)"). -/
theorem push_patch_merge_conflict (e : Env) (w : World) (pn : String)
    (w₁ : World)
    (h1 : e.iw = true) (h2 : e.iwMerge = .conflict)
    (h3 : (mergeOut e w pn).result = none)
    (h4 : checkoutStep e
        { w with t := { w.t with tempIndexTree := (mergeOut e w pn).current } }
        (oursOf w pn) true false = .ok w₁) :
    ∃ wh sha,
      pushPatch e w pn = .halted wh "Merge conflict" (some " (conflict)") ∧
      wh.t.conflictingPush = some ⟨pn, some sha⟩ ∧
      (wh.r.dataOf sha).tree = oursOf w pn ∧
      wh.t.allowConflicts = true ∧
      wh.t.applied = w.t.applied ∧ wh.t.unapplied = w.t.unapplied ∧
      wh.t.hidden = w.t.hidden ∧ wh.t.patchesOv = w.t.patchesOv ∧
      wh.d.applied = w.d.applied ∧ wh.d.unapplied = w.d.unapplied ∧
      wh.d.hidden = w.d.hidden ∧ wh.d.patches = w.d.patches ∧
      wh.d.head = w.d.head := by
  obtain ⟨-, -, hne⟩ := @indexMerge_none_ne e.applyDiff
    (pushBases w pn).1 (oursOf w pn) (theirsOf w pn)
    w.t.tempIndexTree h3
  obtain ⟨ct, co, rfl⟩ := checkoutStep_ok_shape h4
  have hch : cdChanged
      ((((origCdOf w pn).set_committer none).set_parent (w.t.top w.d)).set_tree
        (oursOf w pn)) (origCdOf w pn) := by
    refine Or.inr (Or.inl ?_)
    simpa [CommitData.set_tree, CommitData.set_parent, CommitData.set_committer,
      theirsOf, pushBases] using hne
  let cdX : CommitData :=
    (((origCdOf w pn).set_committer none).set_parent (w.t.top w.d)).set_tree
      (oursOf w pn)
  let WH : World :=
    { t := { w.t with
          tempIndexTree := (mergeOut e w pn).current,
          currentTree := ct,
          allowConflicts := true,
          conflictingPush := some ⟨pn, some w.r.next⟩,
          error := some "Merge conflict" },
      d := { w.d with checkouts := co },
      r := (w.r.commit cdX).2 }
  have hmain : pushPatch e w pn =
      .halted WH "Merge conflict" (some " (conflict)") := by
    simp only [pushPatch, h3]
    rw [if_neg (by simp [h1]), h4]
    simp only [h2]
    simp [finishPush, hch, Repo.commit]
    rfl
  have htree : (WH.r.dataOf w.r.next).tree = oursOf w pn := by
    simpa using congrArg CommitData.tree (dataOf_commit_self w.r cdX)
  exact ⟨WH, w.r.next, hmain, rfl, htree, rfl, rfl, rfl, rfl, rfl, rfl, rfl,
    rfl, rfl, rfl⟩

/-- Witness for C2: a concrete push whose temp-index merge fails and whose
worktree merge conflicts. -/
theorem push_patch_merge_conflict_witness :
    ∃ wh sha,
      pushPatch eConf wS "b" = .halted wh "Merge conflict" (some " (conflict)") ∧
      wh.t.conflictingPush = some ⟨"b", some sha⟩ ∧
      (wh.r.dataOf sha).tree = oursOf wS "b" ∧
      wh.t.allowConflicts = true ∧
      wh.t.applied = wS.t.applied ∧ wh.t.unapplied = wS.t.unapplied ∧
      wh.t.hidden = wS.t.hidden ∧ wh.t.patchesOv = wS.t.patchesOv ∧
      wh.d.applied = wS.d.applied ∧ wh.d.unapplied = wS.d.unapplied ∧
      wh.d.hidden = wS.d.hidden ∧ wh.d.patches = wS.d.patches ∧
      wh.d.head = wS.d.head :=
  push_patch_merge_conflict eConf wS "b"
    { wS with t := { wS.t with tempIndexTree := (mergeOut eConf wS "b").current } }
    rfl rfl (by decide) (by decide)

/-- Helper: `repository.commit` always yields a repository different from
the one it started from (the fresh-SHA counter advances). -/
theorem commit_ne (r : Repo) (cd : CommitData) : (r.commit cd).2 ≠ r := by
  intro h
  have h2 := congrArg Repo.next h
  simp [Repo.commit] at h2

/-- Helper: `update()` with no new commit leaves the override map alone. -/
theorem applyUpdate_none_patchesOv (t : StackTransaction) (pn : String) :
    (applyUpdate t ⟨pn, none⟩).patchesOv = t.patchesOv := by
  unfold applyUpdate
  dsimp only
  split <;> rfl

/-- Helper: whatever path `finishPush` takes, the resulting repository is
the old one extended by the new commit when a field changed, and the old one
unchanged otherwise. -/
theorem finishPush_world_r (w : World) (pn : String) (cd1 origCd : CommitData)
    (tree : Sha) (mc : Bool) (s : String) :
    (finishPush w pn cd1 origCd tree mc s).world.r =
      (if cdChanged (cd1.set_tree tree) origCd then
        (w.r.commit (cd1.set_tree tree)).2
      else w.r) := by
  unfold finishPush PushRes.world
  by_cases hch : cdChanged (cd1.set_tree tree) origCd <;> cases mc <;> simp [hch]

/-- Helper: when no field changed, `finishPush` leaves the override map
unchanged on every path. -/
theorem finishPush_patchesOv_unchanged (w : World) (pn : String)
    (cd1 origCd : CommitData) (tree : Sha) (mc : Bool) (s : String)
    (h : ¬ cdChanged (cd1.set_tree tree) origCd) :
    (finishPush w pn cd1 origCd tree mc s).world.t.patchesOv = w.t.patchesOv := by
  unfold finishPush PushRes.world
  cases mc <;> simp [h, applyUpdate_none_patchesOv]

/-- C7: on a clean temp-index merge, `push_patch` creates a new commit
object if and only if at least one of `parent`, `tree`, `author`, `message`
differs from the patch's original commit data (the repository is extended
exactly in that case); when all four are unchanged, no commit object is
created and the override map records nothing new. -/
theorem push_patch_commit_iff (e : Env) (w : World) (pn : String) (tr : Sha)
    (h : (mergeOut e w pn).result = some tr) :
    (((pushPatch e w pn).world.r ≠ w.r) ↔
      cdChanged
        ((((origCdOf w pn).set_committer none).set_parent (w.t.top w.d)).set_tree
          tr) (origCdOf w pn)) ∧
    (¬ cdChanged
        ((((origCdOf w pn).set_committer none).set_parent (w.t.top w.d)).set_tree
          tr) (origCdOf w pn) →
      (pushPatch e w pn).world.r = w.r ∧
      (pushPatch e w pn).world.t.patchesOv = w.t.patchesOv) := by
  have hred : pushPatch e w pn =
      finishPush { w with t := { w.t with tempIndexTree := (mergeOut e w pn).current } }
        pn (((origCdOf w pn).set_committer none).set_parent (w.t.top w.d))
        (origCdOf w pn) tr false "" := by
    simp [pushPatch, h]
  rw [hred, finishPush_world_r]
  by_cases hch : cdChanged
      ((((origCdOf w pn).set_committer none).set_parent (w.t.top w.d)).set_tree
        tr) (origCdOf w pn)
  · rw [if_pos hch]
    exact ⟨⟨fun _ => hch, fun _ => commit_ne w.r _⟩, fun hc => absurd hch hc⟩
  · rw [if_neg hch]
    exact ⟨by simp [hch], fun _ =>
      ⟨rfl, finishPush_patchesOv_unchanged _ pn _ _ tr false "" hch⟩⟩

/-- Witness for C7: pushing a patch whose parent and tree are already
correct leaves both the repository and the override map untouched. -/
theorem push_patch_commit_iff_witness :
    (pushPatch eNoIw wU "b").world.r = wU.r ∧
    (pushPatch eNoIw wU "b").world.t.patchesOv = wU.t.patchesOv :=
  (push_patch_commit_iff eNoIw wU "b" 2 (by decide)).2 (by decide)

/-- Counterexample for C8: in `wE` the pushed patch `b` has
`theirs == ours` (both trees are 2), yet `push_patch` completes and *does*
create a new commit object (the repository changes), because the patch's
parent is rebased from commit 1 onto the transaction top (commit 0). -/
theorem push_empty_counterexample :
    oursOf wE "b" = theirsOf wE "b" ∧
    (pushPatch eNoIw wE "b").isOk = true ∧
    (pushPatch eNoIw wE "b").world.r ≠ wE.r := by decide

/-- Helper: looking up a commit after `repository.commit` returns the new
data at the fresh SHA and the old data elsewhere. -/
theorem dataOf_commit (r : Repo) (cd : CommitData) (s : Sha) :
    ((r.commit cd).2).dataOf s = if s = r.next then cd else r.dataOf s := by
  by_cases hs : s = r.next
  · simp [Repo.commit, Repo.dataOf, List.lookup_cons, hs]
  · have hb : (s == r.next) = false := by simpa using hs
    simp [Repo.commit, Repo.dataOf, List.lookup_cons, hs, hb]

/-- C8 (amended): a `push_patch` whose `theirs` tree equals `ours` always
completes and produces an *(empty)* patch; it creates no commit object
exactly when the patch's original parent already equals the transaction's
top (otherwise the reparenting alone forces a fresh commit object, as the
counterexample shows). -/
theorem push_patch_empty (e : Env) (w : World) (pn : String)
    (h : oursOf w pn = theirsOf w pn) :
    ∃ w', pushPatch e w pn = .ok w' " (empty)" ∧
      (w'.r = w.r ↔ (origCdOf w pn).parent = w.t.top w.d) := by
  have hm : mergeOut e w pn = ⟨some (oursOf w pn), w.t.tempIndexTree, 0⟩ := by
    unfold mergeOut
    exact indexMerge_t3 h
  have hred : pushPatch e w pn =
      finishPush w pn
        (((origCdOf w pn).set_committer none).set_parent (w.t.top w.d))
        (origCdOf w pn) (oursOf w pn) false "" := by
    simp [pushPatch, hm]
  have htheirs : theirsOf w pn = (origCdOf w pn).tree := rfl
  have e1 : ((((origCdOf w pn).set_committer none).set_parent
      (w.t.top w.d)).set_tree (oursOf w pn)).parent = w.t.top w.d := rfl
  by_cases hpar : (origCdOf w pn).parent = w.t.top w.d
  · have hch : ¬ cdChanged
        ((((origCdOf w pn).set_committer none).set_parent (w.t.top w.d)).set_tree
          (oursOf w pn)) (origCdOf w pn) := by
      rintro (hp | ht | ha | hm2)
      · exact hp (e1.trans hpar.symm)
      · exact ht (h.trans htheirs)
      · exact ha rfl
      · exact hm2 rfl
    have hnc : isNochange w.r
        ((((origCdOf w pn).set_committer none).set_parent (w.t.top w.d)).set_tree
          (oursOf w pn)) := ⟨rfl, rfl⟩
    refine ⟨{ w with t := applyUpdate w.t ⟨pn, none⟩ }, ?_, by simp [hpar]⟩
    rw [hred]
    unfold finishPush
    simp [hch, hnc]
  · have hch : cdChanged
        ((((origCdOf w pn).set_committer none).set_parent (w.t.top w.d)).set_tree
          (oursOf w pn)) (origCdOf w pn) :=
      Or.inl (by rw [e1]; exact fun he => hpar he.symm)
    have hnc : isNochange (w.r.commit
        ((((origCdOf w pn).set_committer none).set_parent (w.t.top w.d)).set_tree
          (oursOf w pn))).2
        ((((origCdOf w pn).set_committer none).set_parent (w.t.top w.d)).set_tree
          (oursOf w pn)) := by
      refine ⟨rfl, ?_⟩
      rw [e1, dataOf_commit]
      split_ifs with hs
      · rfl
      · rfl
    refine ⟨World.mk (applyUpdate w.t ⟨pn, some w.r.next⟩) w.d
        (w.r.commit
          ((((origCdOf w pn).set_committer none).set_parent (w.t.top w.d)).set_tree
            (oursOf w pn))).2, ?_, ?_⟩
    · rw [hred]
      unfold finishPush
      simp [hch, hnc]
      rfl
    · simp [hpar]
      exact commit_ne w.r _

/-- Witness for C8 (amended) at a concrete empty push whose parent is
already correct. -/
theorem push_patch_empty_witness :
    ∃ w', pushPatch eNoIw wU "b" = .ok w' " (empty)" ∧
      (w'.r = wU.r ↔ (origCdOf wU "b").parent = wU.t.top wU.d) :=
  push_patch_empty eNoIw wU "b" (by decide)

/-- Helper: a single patch-metadata writeback only touches the `patches`
map. -/
theorem writeOne_frame (d : Disk) (pn : String) (c : Option Sha) :
    (writeOne d pn c).applied = d.applied ∧
    (writeOne d pn c).unapplied = d.unapplied ∧
    (writeOne d pn c).hidden = d.hidden ∧
    (writeOne d pn c).head = d.head ∧
    (writeOne d pn c).base = d.base ∧
    (writeOne d pn c).logEntries = d.logEntries ∧
    (writeOne d pn c).checkouts = d.checkouts := by
  unfold writeOne
  by_cases hp : d.patchExists pn <;> cases c <;> simp [hp]

/-- Helper: the override-map writeback loop only touches the `patches`
map. -/
theorem writePatchList_frame (ov : List (String × Option Sha)) (d : Disk) :
    (writePatchList ov d).applied = d.applied ∧
    (writePatchList ov d).unapplied = d.unapplied ∧
    (writePatchList ov d).hidden = d.hidden ∧
    (writePatchList ov d).head = d.head ∧
    (writePatchList ov d).base = d.base ∧
    (writePatchList ov d).logEntries = d.logEntries ∧
    (writePatchList ov d).checkouts = d.checkouts := by
  induction ov generalizing d with
  | nil => exact ⟨rfl, rfl, rfl, rfl, rfl, rfl, rfl⟩
  | cons e rest ih =>
    obtain ⟨i1, i2, i3, i4, i5, i6, i7⟩ := ih (writeOne d e.1 e.2)
    obtain ⟨o1, o2, o3, o4, o5, o6, o7⟩ := writeOne_frame d e.1 e.2
    exact ⟨i1.trans o1, i2.trans o2, i3.trans o3, i4.trans o4, i5.trans o5,
      i6.trans o6, i7.trans o7⟩

/-- Helper: writing a commit for a patch makes it the patch's recorded
commit. -/
theorem writeOne_lookup_self (d : Disk) (pn : String) (sha : Sha) :
    ((writeOne d pn (some sha)).patches.lookup pn) = some sha := by
  unfold writeOne
  by_cases hp : d.patchExists pn <;> simp [hp, List.lookup_cons]

/-- Helper: one writeback-plus-log pass installs the staged lists, appends
one log entry, and touches neither the staged transaction, the repository,
the branch head, nor the checkout trace. -/
theorem writePass_fields (w : World) (msg : String) :
    (writePass w msg).t = w.t ∧
    (writePass w msg).r = w.r ∧
    (writePass w msg).d.applied = w.t.applied ∧
    (writePass w msg).d.unapplied = w.t.unapplied ∧
    (writePass w msg).d.hidden = w.t.hidden ∧
    (writePass w msg).d.head = w.d.head ∧
    (writePass w msg).d.checkouts = w.d.checkouts ∧
    (writePass w msg).d.logEntries = w.d.logEntries ++ [msg] ∧
    (writePass w msg).d.patches = (writePatchList w.t.patchesOv w.d).patches := by
  obtain ⟨f1, f2, f3, f4, f5, f6, f7⟩ := writePatchList_frame w.t.patchesOv w.d
  exact ⟨rfl, rfl, rfl, rfl, rfl, f4, f7, by simp [writePass, f6], rfl⟩

/-- Helper: `update()` appends the pushed patch to `applied`. -/
theorem applyUpdate_applied (t : StackTransaction) (u : Pending) :
    (applyUpdate t u).applied = t.applied ++ [u.pn] := by
  unfold applyUpdate
  cases hc : u.comm <;> dsimp only [hc] <;> split <;> rfl

/-- Helper: `update()` does not touch the message, error, current tree or
pending-push fields. -/
theorem applyUpdate_frame (t : StackTransaction) (u : Pending) :
    (applyUpdate t u).msg = t.msg ∧ (applyUpdate t u).error = t.error ∧
    (applyUpdate t u).currentTree = t.currentTree ∧
    (applyUpdate t u).conflictingPush = t.conflictingPush := by
  unfold applyUpdate
  cases hc : u.comm <;> dsimp only [hc] <;> split <;> exact ⟨rfl, rfl, rfl, rfl⟩

/-- Helper: `update()` run against a freshly reset override map records
exactly the new commit (when there is one). -/
theorem applyUpdate_reset_ov (t : StackTransaction) (u : Pending) :
    (applyUpdate { t with patchesOv := [] } u).patchesOv =
      (match u.comm with
        | some cm => [(u.pn, some cm)]
        | none => []) := by
  unfold applyUpdate
  cases hc : u.comm <;> dsimp only [hc] <;> split <;> simp [ovSet]

/-- Helper: the tail of `run` after head-setting, when a conflicting push is
pending: the override map is reset, the deferred update is applied (the
conflicted patch lands at the top of `applied`, its new commit — if any — is
written to the patch metadata), and two log entries are appended, the second
under the `" (CONFLICT)"`-suffixed message.  The transaction's error field
is untouched and determines the exit code. -/
theorem conflictPass_fields (w2 : World) (u : Pending) :
    (conflictPass w2 u).t = applyUpdate { w2.t with patchesOv := [] } u ∧
    (conflictPass w2 u).d.logEntries =
      w2.d.logEntries ++ [w2.t.msg ++ " (CONFLICT)"] ∧
    (conflictPass w2 u).d.applied = w2.t.applied ++ [u.pn] ∧
    (conflictPass w2 u).d.head = w2.d.head ∧
    (conflictPass w2 u).d.checkouts = w2.d.checkouts ∧
    (conflictPass w2 u).t.error = w2.t.error ∧
    (conflictPass w2 u).t.currentTree = w2.t.currentTree ∧
    (∀ cm, u.comm = some cm →
      (conflictPass w2 u).d.patches.lookup u.pn = some cm) := by
  unfold conflictPass
  obtain ⟨p1, p2, p3, p4, p5, p6, p7, p8, p9⟩ :=
    writePass_fields { w2 with t := applyUpdate { w2.t with patchesOv := [] } u }
      (w2.t.msg ++ " (CONFLICT)")
  refine ⟨p1, p8, ?_, p6, p7, ?_, ?_, ?_⟩
  · exact p3.trans (applyUpdate_applied _ u)
  · rw [p1]
    exact (applyUpdate_frame { w2.t with patchesOv := [] } u).2.1
  · rw [p1]
    exact (applyUpdate_frame { w2.t with patchesOv := [] } u).2.2.1
  · intro cm hcm
    rw [p9]
    show (writePatchList
        (applyUpdate { w2.t with patchesOv := [] } u).patchesOv
        w2.d).patches.lookup u.pn = some cm
    rw [applyUpdate_reset_ov, hcm]
    exact writeOne_lookup_self w2.d u.pn cm

/-- Helper: the tail of `run` after head-setting, with a pending conflicting
push, expressed in terms of the two writeback passes. -/
theorem runRest_conflict {w : World} {u : Pending}
    (hcp : w.t.conflictingPush = some u) :
    (runRest w).1.d.logEntries =
      w.d.logEntries ++ [w.t.msg, w.t.msg ++ " (CONFLICT)"] ∧
    (runRest w).1.d.applied = w.t.applied ++ [u.pn] ∧
    (runRest w).1.t.patchesOv =
      (match u.comm with
        | some cm => [(u.pn, some cm)]
        | none => []) ∧
    (∀ cm, u.comm = some cm →
      (runRest w).1.d.patches.lookup u.pn = some cm) ∧
    (runRest w).1.t.error = w.t.error ∧
    (runRest w).2 =
      (if w.t.error.isSome then STGIT_CONFLICT else STGIT_SUCCESS) ∧
    (runRest w).1.d.head = w.d.head ∧
    (runRest w).1.d.checkouts = w.d.checkouts ∧
    (runRest w).1.t.currentTree = w.t.currentTree := by
  obtain ⟨p1, p2, p3, p4, p5, p6, p7, p8, p9⟩ := writePass_fields w w.t.msg
  have hred : runRest w = (conflictPass (writePass w w.t.msg) u,
      if (conflictPass (writePass w w.t.msg) u).t.error.isSome then
        STGIT_CONFLICT
      else STGIT_SUCCESS) := by
    unfold runRest
    dsimp only
    rw [p1, hcp]
  obtain ⟨c1, c2, c3, c4, c5, c6, c7, c8⟩ :=
    conflictPass_fields (writePass w w.t.msg) u
  rw [hred]
  refine ⟨?_, ?_, ?_, c8, ?_, ?_, ?_, ?_, ?_⟩
  · rw [c2, p8, p1]
    simp
  · rw [c3, p1]
  · rw [c1, applyUpdate_reset_ov]
  · rw [c6, p1]
  · rw [c6, p1]
  · rw [c4, p6]
  · rw [c5, p7]
  · rw [c7, p1]

/-- Helper: the tail of `run` with no pending conflicting push: the staged
lists and override map are written back, one log entry is appended, and the
staged transaction itself is unchanged. -/
theorem runRest_none {w : World} (hcp : w.t.conflictingPush = none) :
    (runRest w).1 = writePass w w.t.msg ∧
    (runRest w).2 =
      (if w.t.error.isSome then STGIT_CONFLICT else STGIT_SUCCESS) := by
  obtain ⟨p1, p2, p3, p4, p5, p6, p7, p8, p9⟩ := writePass_fields w w.t.msg
  have hred : runRest w = (writePass w w.t.msg,
      if (writePass w w.t.msg).t.error.isSome then STGIT_CONFLICT
      else STGIT_SUCCESS) := by
    unfold runRest
    dsimp only
    rw [p1, hcp]
    rfl
  rw [hred]
  exact ⟨rfl, by rw [p1]⟩

/-- Helper: a successful head-setting phase leaves the staged transaction's
bookkeeping fields, the disk's lists, patch map and log, and the repository
unchanged (only the branch head, the checkout trace and the cached current
tree may change). -/
theorem headStep_ok_frame {e : Env} {w : World} {nh : Sha} {sh abh : Bool}
    {w1 : World} (h : headStep e w nh sh abh = .ok w1) :
    w1.t.msg = w.t.msg ∧ w1.t.applied = w.t.applied ∧
    w1.t.unapplied = w.t.unapplied ∧ w1.t.hidden = w.t.hidden ∧
    w1.t.patchesOv = w.t.patchesOv ∧ w1.t.error = w.t.error ∧
    w1.t.conflictingPush = w.t.conflictingPush ∧
    w1.d.logEntries = w.d.logEntries ∧ w1.d.patches = w.d.patches ∧
    w1.r = w.r := by
  unfold headStep at h
  cases sh with
  | false =>
    simp only [Bool.false_eq_true, if_false, HeadRes.ok.injEq] at h
    subst h
    exact ⟨rfl, rfl, rfl, rfl, rfl, rfl, rfl, rfl, rfl, rfl⟩
  | true =>
    simp only [if_true] at h
    cases hiw : e.iw with
    | false =>
      rw [hiw] at h
      simp only [Bool.false_eq_true, if_false, HeadRes.ok.injEq] at h
      subst h
      exact ⟨rfl, rfl, rfl, rfl, rfl, rfl, rfl, rfl, rfl, rfl⟩
    | true =>
      rw [hiw] at h
      simp only [if_true] at h
      cases hco : checkoutStep e w ((w.r.dataOf nh).tree) true abh with
      | ok w2 =>
        rw [hco] at h
        simp only [HeadRes.ok.injEq] at h
        subst h
        obtain ⟨ct, co, rfl⟩ := checkoutStep_ok_shape hco
        exact ⟨rfl, rfl, rfl, rfl, rfl, rfl, rfl, rfl, rfl, rfl⟩
      | coFail w2 =>
        rw [hco] at h
        simp at h
      | abortC w2 =>
        rw [hco] at h
        simp at h

/-- C1: whenever `run()` completes, its exit code is `STGIT_CONFLICT` (3)
exactly when the transaction's error field is set and `STGIT_SUCCESS` (0)
otherwise; and when `conflicting_push` is pending, after the first
patch-writeback pass the override map is reset, the deferred finalizer is
invoked — recording the conflicted patch at the top of `applied` and its new
commit in the patch metadata — and a second writeback-plus-log pass runs
under the log message suffixed `" (CONFLICT)"`. -/
theorem run_conflict_status (e : Env) (w : World) (setHead allowBadHead : Bool)
    (w' : World) (c : Nat)
    (hok : StackTransaction.run e w setHead allowBadHead = .ok w' c) :
    (c = if w.t.error.isSome then STGIT_CONFLICT else STGIT_SUCCESS) ∧
    (∀ u, w.t.conflictingPush = some u →
      w'.d.logEntries = w.d.logEntries ++ [w.t.msg, w.t.msg ++ " (CONFLICT)"] ∧
      w'.d.applied = w.t.applied ++ [u.pn] ∧
      w'.t.patchesOv =
        (match u.comm with
          | some cm => [(u.pn, some cm)]
          | none => []) ∧
      (∀ cm, u.comm = some cm → w'.d.patches.lookup u.pn = some cm)) := by
  unfold StackTransaction.run at hok
  by_cases hc : w.t.consistent w.d = false
  · rw [if_pos hc] at hok
    simp at hok
  · rw [if_neg hc] at hok
    dsimp only at hok
    cases hh : headStep e w (w.t.headC w.d) setHead allowBadHead with
    | abortH wx =>
      rw [hh] at hok
      simp at hok
    | ok w1 =>
      rw [hh] at hok
      simp only [RunRes.ok.injEq] at hok
      obtain ⟨hw', hcode⟩ := hok
      obtain ⟨f1, f2, f3, f4, f5, f6, f7, f8, f9, f10⟩ := headStep_ok_frame hh
      constructor
      · cases hcp : w1.t.conflictingPush with
        | none =>
          obtain ⟨-, hcd⟩ := runRest_none hcp
          rw [← hcode, hcd, f6]
        | some u =>
          obtain ⟨-, -, -, -, -, hcd, -, -, -⟩ := runRest_conflict hcp
          rw [← hcode, hcd, f6]
      · intro u hu
        have hcp : w1.t.conflictingPush = some u := by rw [f7, hu]
        obtain ⟨r1, r2, r3, r4, r5, r6, -, -, -⟩ := runRest_conflict hcp
        subst hw'
        refine ⟨?_, ?_, ?_, r4⟩
        · rw [r1, f8, f1]
        · rw [r2, f2]
        · exact r3

/-- Witness for C1: running the conflicted transaction `wCont` (no head
update) returns the conflict exit code and performs the two-pass conflict
continuation. -/
theorem run_conflict_status_witness :
    ((runRest wCont).2 =
      if wCont.t.error.isSome then STGIT_CONFLICT else STGIT_SUCCESS) ∧
    (runRest wCont).1.d.logEntries =
      wCont.d.logEntries ++ [wCont.t.msg, wCont.t.msg ++ " (CONFLICT)"] ∧
    (runRest wCont).1.d.applied = wCont.t.applied ++ ["p"] ∧
    (runRest wCont).1.d.patches.lookup "p" = some 50 := by
  have hok : StackTransaction.run eNoIw wCont false false =
      .ok (runRest wCont).1 (runRest wCont).2 := by decide
  have h := run_conflict_status eNoIw wCont false false _ _ hok
  exact ⟨h.1, (h.2 ⟨"p", some 50⟩ rfl).1, (h.2 ⟨"p", some 50⟩ rfl).2.1,
    (h.2 ⟨"p", some 50⟩ rfl).2.2.2 50 rfl⟩

/-- C10: `run()` with `set_head=False` performs no checkout and never
advances the branch head ref — the checkout trace, the cached worktree tree
and the on-disk head are exactly as before — while the patch-metadata
writeback, the three ordered patch lists, and the log entry (plus, for a
pending conflicting push, the second pass) are still written. -/
theorem run_no_set_head (e : Env) (w : World) (abh : Bool)
    (hc : w.t.consistent w.d = true) :
    StackTransaction.run e w false abh = .ok (runRest w).1 (runRest w).2 ∧
    (runRest w).1.d.head = w.d.head ∧
    (runRest w).1.d.checkouts = w.d.checkouts ∧
    (runRest w).1.t.currentTree = w.t.currentTree ∧
    (runRest w).1.d.logEntries = w.d.logEntries ++ [w.t.msg] ++
      (match w.t.conflictingPush with
        | none => []
        | some _ => [w.t.msg ++ " (CONFLICT)"]) ∧
    (w.t.conflictingPush = none →
      (runRest w).1.d.applied = w.t.applied ∧
      (runRest w).1.d.unapplied = w.t.unapplied ∧
      (runRest w).1.d.hidden = w.t.hidden ∧
      (runRest w).1.d.patches = (writePatchList w.t.patchesOv w.d).patches) ∧
    (∀ u, w.t.conflictingPush = some u →
      (runRest w).1.d.applied = w.t.applied ++ [u.pn]) := by
  have hA : StackTransaction.run e w false abh =
      .ok (runRest w).1 (runRest w).2 := by
    unfold StackTransaction.run headStep
    simp [hc]
  cases hcp : w.t.conflictingPush with
  | none =>
    obtain ⟨h1, -⟩ := runRest_none hcp
    obtain ⟨p1, p2, p3, p4, p5, p6, p7, p8, p9⟩ := writePass_fields w w.t.msg
    rw [h1] at hA ⊢
    refine ⟨hA, p6, p7, by rw [p1], ?_, fun _ => ⟨p3, p4, p5, p9⟩,
      fun u hu => Option.noConfusion hu⟩
    rw [p8]
    simp
  | some u0 =>
    obtain ⟨r1, r2, r3, r4, r5, r6, r7, r8, r9⟩ := runRest_conflict hcp
    refine ⟨hA, r7, r8, r9, ?_, fun h0 => Option.noConfusion h0, ?_⟩
    · rw [r1]
      simp
    · intro u hu
      injection hu with hu
      rw [← hu]
      exact r2

/-- Witness for C10: the consistent world `wCont` run without head-setting
leaves head and checkouts untouched while still writing back. -/
theorem run_no_set_head_witness :
    StackTransaction.run eConf wCont false true =
      .ok (runRest wCont).1 (runRest wCont).2 ∧
    (runRest wCont).1.d.head = wCont.d.head ∧
    (runRest wCont).1.d.checkouts = wCont.d.checkouts ∧
    (runRest wCont).1.t.currentTree = wCont.t.currentTree :=
  ⟨(run_no_set_head eConf wCont true (by decide)).1,
   (run_no_set_head eConf wCont true (by decide)).2.1,
   (run_no_set_head eConf wCont true (by decide)).2.2.1,
   (run_no_set_head eConf wCont true (by decide)).2.2.2.1⟩

/-- Counterexample for C9: in `wDup` the name `p` appears twice in `hidden`;
the three lists are pairwise disjoint and their union is the live set, so the
invariant exactly as claimed holds — yet pushing `p` moves one occurrence to
`applied` while the other stays hidden, so the pairwise disjointness is
broken after `push_patch` and the invariant is not preserved. -/
theorem stack_inv_counterexample :
    stackInv wDup.t wDup.d.patches ∧
    (pushPatch eNoIw wDup "p").isOk = true ∧
    ¬ stackInv (pushPatch eNoIw wDup "p").world.t
        (pushPatch eNoIw wDup "p").world.d.patches := by
  refine ⟨⟨?_, ?_, ?_, ?_⟩, by decide, ?_⟩
  · intro pn
    by_cases hp : pn = "p"
    · simp [allNames, liveB, wDup, hp, List.lookup]
    · have hb : (pn == "p") = false := by simpa using hp
      simp [allNames, liveB, wDup, hp, hb, List.lookup]
  · intro pn
    simp [wDup]
  · intro pn
    simp [wDup]
  · intro pn
    simp [wDup]
  · rintro ⟨-, -, hAH, -⟩
    exact hAH "p" ⟨by decide, by decide⟩

/-- Helper: liveness only depends on the override map. -/
theorem liveB_eq_of_ov {t t' : StackTransaction}
    (h : t'.patchesOv = t.patchesOv) (dp : List (String × Sha)) (pn : String) :
    liveB t' dp pn = liveB t dp pn := by
  unfold liveB
  rw [h]

/-- Helper: the strengthened invariant only depends on the three lists and
the override map. -/
theorem stackInvND_eqv {t t' : StackTransaction} {dp : List (String × Sha)}
    (h1 : t'.applied = t.applied) (h2 : t'.unapplied = t.unapplied)
    (h3 : t'.hidden = t.hidden) (h4 : t'.patchesOv = t.patchesOv)
    (h : stackInvND t dp) : stackInvND t' dp := by
  have hall : allNames t' = allNames t := by
    unfold allNames
    rw [h1, h2, h3]
  refine ⟨by rw [hall]; exact h.1, fun q => ?_⟩
  rw [hall, liveB_eq_of_ov h4]
  exact h.2 q

/-- Helper: the strengthened invariant transports along permutations of the
name lists when the override map is unchanged. -/
theorem stackInvND_of_perm {t t' : StackTransaction} {dp : List (String × Sha)}
    (hperm : List.Perm (allNames t') (allNames t))
    (hov : t'.patchesOv = t.patchesOv)
    (h : stackInvND t dp) : stackInvND t' dp := by
  refine ⟨hperm.nodup_iff.mpr h.1, fun q => ?_⟩
  rw [hperm.mem_iff, liveB_eq_of_ov hov]
  exact h.2 q

/-- Helper: splitting a list into its non-matching and matching parts is a
permutation. -/
theorem filterSplit_perm (p : String → Bool) (l : List String) :
    List.Perm (l.filter (fun pn => !(p pn)) ++ l.filter p) l := by
  induction l with
  | nil => simp
  | cons a l ih =>
    by_cases ha : p a = true
    · simp only [List.filter_cons, ha, Bool.not_true]
      exact (List.perm_middle).trans (ih.cons a)
    · simp only [List.filter_cons, ha, Bool.not_false,
        Bool.not_eq_true] at *
      simp only [ha, Bool.false_eq_true, if_false, cond_false]
      exact ih.cons a

/-- Helper: `pop_patches` permutes the three lists among themselves and
leaves the override map alone, so it preserves the strengthened invariant. -/
theorem stackInvND_pop (t : StackTransaction) (dp : List (String × Sha))
    (p : String → Bool) (h : stackInvND t dp) :
    stackInvND (t.pop_patches p).1 dp := by
  refine stackInvND_of_perm ?_ ?_ h
  case refine_2 => rfl
  have h1 := (filterSplit_perm p
    (t.applied.drop (t.applied.findIdx p))).append_right (t.unapplied ++ t.hidden)
  have h2 := h1.append_left (t.applied.take (t.applied.findIdx p))
  have h3 : t.applied.take (t.applied.findIdx p) ++
      (t.applied.drop (t.applied.findIdx p) ++ (t.unapplied ++ t.hidden)) =
      allNames t := by
    rw [← List.append_assoc, List.take_append_drop]
    simp [allNames]
  have h4 : allNames (t.pop_patches p).1 =
      t.applied.take (t.applied.findIdx p) ++
        (((t.applied.drop (t.applied.findIdx p)).filter (fun pn => !(p pn)) ++
          (t.applied.drop (t.applied.findIdx p)).filter p) ++
          (t.unapplied ++ t.hidden)) := by
    simp [allNames, StackTransaction.pop_patches, popSplit_eq]
  rw [h4, ← h3]
  exact h2

/-- Helper: the tombstoning loop never touches the three lists. -/
theorem tombAll_lists (p : String → Bool) (l : List String)
    (t : StackTransaction) :
    (tombAll p l t).applied = t.applied ∧
    (tombAll p l t).unapplied = t.unapplied ∧
    (tombAll p l t).hidden = t.hidden := by
  induction l generalizing t with
  | nil => exact ⟨rfl, rfl, rfl⟩
  | cons pn rest ih =>
    unfold tombAll
    by_cases hp : p pn = true <;> simp only [hp] <;> exact ih _

/-- Helper: override-map update seen through lookup. -/
theorem ovSet_lookup (m : List (String × Option Sha)) (pn : String)
    (v : Option Sha) (q : String) :
    (ovSet m pn v).lookup q = if q = pn then some v else m.lookup q := by
  unfold ovSet
  by_cases hq : q = pn
  · simp [hq, List.lookup_cons]
  · have hb : (q == pn) = false := by simpa using hq
    rw [List.lookup_cons]
    simp only [hb, if_neg hq]
    induction m with
    | nil => rfl
    | cons e rest ih =>
      obtain ⟨k, v'⟩ := e
      by_cases he : k = pn
      · have hqk : (q == k) = false := by simp [he, hq]
        have hf : (k != pn) = false := by simpa using he
        simp [List.filter_cons, hf, List.lookup_cons, hqk, ih]
      · have ht : (k != pn) = true := by simpa using he
        cases hqk : (q == k) with
        | true => simp [List.filter_cons, ht, List.lookup_cons, hqk]
        | false => simp [List.filter_cons, ht, List.lookup_cons, hqk, ih]

/-- Helper: lookups after the tombstoning loop: every matching name from the
walked list is tombstoned, everything else is untouched. -/
theorem tombAll_lookup (p : String → Bool) (l : List String)
    (t : StackTransaction) (q : String) :
    (tombAll p l t).patchesOv.lookup q =
      if q ∈ l ∧ p q = true then some none else t.patchesOv.lookup q := by
  induction l generalizing t with
  | nil => simp [tombAll]
  | cons pn rest ih =>
    unfold tombAll
    by_cases hp : p pn = true
    · simp only [hp, if_true]
      rw [ih]
      by_cases hqr : q ∈ rest ∧ p q = true
      · simp [hqr, hqr.1]
      · rw [if_neg hqr]
        by_cases hqpn : q = pn
        · subst hqpn
          simp [hp, ovSet_lookup]
        · have : ¬(q ∈ pn :: rest ∧ p q = true) := by
            rintro ⟨hm, hq⟩
            rcases List.mem_cons.mp hm with h | h
            · exact hqpn h
            · exact hqr ⟨h, hq⟩
          rw [if_neg this, ovSet_lookup, if_neg hqpn]
    · have hpf : p pn = false := by simpa using hp
      simp only [hpf, Bool.false_eq_true, if_false]
      rw [ih]
      by_cases hqr : q ∈ rest ∧ p q = true
      · simp [hqr.1, hqr.2]
      · have hnc : ¬(q ∈ pn :: rest ∧ p q = true) := by
          rintro ⟨hm, hq2⟩
          rcases List.mem_cons.mp hm with h | h
          · rw [h] at hq2
            rw [hq2] at hpf
            cases hpf
          · exact hqr ⟨h, hq2⟩
        rw [if_neg hqr, if_neg hnc]

/-- Helper: every element kept by the scan loop fails the predicate. -/
theorem popSplit_prefix_false (p : String → Bool) (l : List String) :
    ∀ x ∈ (popSplit p l).1, p x = false := by
  induction l with
  | nil => simp [popSplit]
  | cons pn rest ih =>
    by_cases hp : p pn = true
    · simp [popSplit, hp]
    · simp only [Bool.not_eq_true] at hp
      simp only [popSplit, hp, Bool.false_eq_true, if_false]
      intro x hx
      rcases List.mem_cons.mp hx with h | h
      · rw [h]
        exact hp
      · exact ih x h

/-- Helper: after `delete_patches(p)`, the three lists are exactly the
original concatenation filtered by `not p`. -/
theorem delete_allNames (t : StackTransaction) (p : String → Bool) :
    allNames (t.delete_patches p).1 =
      (allNames t).filter (fun pn => !(p pn)) := by
  unfold StackTransaction.delete_patches
  obtain ⟨l1, l2, l3⟩ := tombAll_lists p (t.applied ++ t.unapplied ++ t.hidden)
    { t with
      applied := (popSplit p t.applied).1
      unapplied := (popSplit p t.applied).2.filter (fun pn => !(p pn)) ++
        t.unapplied.filter (fun pn => !(p pn))
      hidden := t.hidden.filter (fun pn => !(p pn)) }
  unfold allNames
  rw [l1, l2, l3]
  have hpre : (popSplit p t.applied).1.filter (fun pn => !(p pn)) =
      (popSplit p t.applied).1 :=
    List.filter_eq_self.mpr fun a ha => by
      simp [popSplit_prefix_false p t.applied a ha]
  calc (popSplit p t.applied).1 ++
        ((popSplit p t.applied).2.filter (fun pn => !(p pn)) ++
          t.unapplied.filter (fun pn => !(p pn))) ++
        t.hidden.filter (fun pn => !(p pn))
      = ((popSplit p t.applied).1.filter (fun pn => !(p pn)) ++
          (popSplit p t.applied).2.filter (fun pn => !(p pn))) ++
        t.unapplied.filter (fun pn => !(p pn)) ++
        t.hidden.filter (fun pn => !(p pn)) := by
        rw [hpre]
        simp [List.append_assoc]
    _ = (allNames t).filter (fun pn => !(p pn)) := by
        rw [popSplit_eq]
        simp only [← List.filter_append, List.take_append_drop]
        simp [allNames, List.append_assoc]

/-- Helper: `delete_patches` preserves the strengthened invariant: the lists
shrink to the non-matching names and exactly the matching names are
tombstoned. -/
theorem stackInvND_delete (t : StackTransaction) (dp : List (String × Sha))
    (p : String → Bool) (h : stackInvND t dp) :
    stackInvND (t.delete_patches p).1 dp := by
  obtain ⟨hnd, hmem⟩ := h
  have hlk : ∀ q, (t.delete_patches p).1.patchesOv.lookup q =
      if q ∈ allNames t ∧ p q = true then some none
      else t.patchesOv.lookup q :=
    fun q => tombAll_lookup p (allNames t) _ q
  have hliveq : ∀ q, liveB (t.delete_patches p).1 dp q =
      if q ∈ allNames t ∧ p q = true then false else liveB t dp q := by
    intro q
    unfold liveB
    rw [hlk q]
    split_ifs with hc
    · rfl
    · rfl
  constructor
  · rw [delete_allNames]
    exact hnd.filter _
  · intro q
    rw [delete_allNames, List.mem_filter, hliveq q]
    by_cases hq : p q = true
    · by_cases hm : q ∈ allNames t
      · simp [hq, hm]
      · simp [hq, hm, ← hmem q]
    · have hqf : p q = false := by simpa using hq
      simp [hqf, hmem q]

/-- Helper: a conflicted `finishPush` (deferred update) leaves the three
lists, the override map and the disk untouched. -/
theorem finishPush_mc_fields (w : World) (pn : String)
    (cd1 origCd : CommitData) (tree : Sha) (s : String) :
    (finishPush w pn cd1 origCd tree true s).world.d = w.d ∧
    (finishPush w pn cd1 origCd tree true s).world.t.applied = w.t.applied ∧
    (finishPush w pn cd1 origCd tree true s).world.t.unapplied =
      w.t.unapplied ∧
    (finishPush w pn cd1 origCd tree true s).world.t.hidden = w.t.hidden ∧
    (finishPush w pn cd1 origCd tree true s).world.t.patchesOv =
      w.t.patchesOv ∧
    (finishPush w pn cd1 origCd tree true s).isOk = false := by
  by_cases hch : cdChanged (cd1.set_tree tree) origCd <;>
    simp [finishPush, PushRes.world, PushRes.isOk, hch]

/-- Helper: a non-conflicted `finishPush` completes, leaves the disk alone
and applies `update()` to the staged transaction, recording a fresh commit
exactly when a field changed. -/
theorem finishPush_ok_fields (w : World) (pn : String)
    (cd1 origCd : CommitData) (tree : Sha) (s : String) :
    (finishPush w pn cd1 origCd tree false s).isOk = true ∧
    (finishPush w pn cd1 origCd tree false s).world.d = w.d ∧
    (finishPush w pn cd1 origCd tree false s).world.t =
      applyUpdate w.t ⟨pn,
        if cdChanged (cd1.set_tree tree) origCd then some w.r.next
        else none⟩ := by
  by_cases hch : cdChanged (cd1.set_tree tree) origCd <;>
    simp [finishPush, PushRes.world, PushRes.isOk, hch, Repo.commit]

/-- Helper: an unsuccessful `__checkout` returns the world unchanged. -/
theorem checkoutStep_notok_eq {e : Env} {w : World} {tree : Sha}
    {iwp abh : Bool} {w2 : World} :
    (checkoutStep e w tree iwp abh = .coFail w2 → w2 = w) ∧
    (checkoutStep e w tree iwp abh = .abortC w2 → w2 = w) := by
  constructor <;>
    (intro h
     unfold checkoutStep at h
     split_ifs at h <;> (injection h with h; exact h.symm))

/-- Helper: the fields of `update()` only depend on the three lists and the
override map of the state it is applied to. -/
theorem applyUpdate_fields_congr (X t : StackTransaction) (u : Pending)
    (h1 : X.applied = t.applied) (h2 : X.unapplied = t.unapplied)
    (h3 : X.hidden = t.hidden) (h4 : X.patchesOv = t.patchesOv) :
    (applyUpdate X u).applied = (applyUpdate t u).applied ∧
    (applyUpdate X u).unapplied = (applyUpdate t u).unapplied ∧
    (applyUpdate X u).hidden = (applyUpdate t u).hidden ∧
    (applyUpdate X u).patchesOv = (applyUpdate t u).patchesOv := by
  unfold applyUpdate
  cases hc : u.comm <;> simp [hc, ovSet, h1, h2, h3, h4] <;>
    by_cases hmem : u.pn ∈ t.hidden <;> simp [hmem]

/-- Helper: every `push_patch` outcome either leaves the staged lists, the
override map and the stack's patch map untouched (all halting paths), or
completes with the lists and override map of `update()` applied to the
original staged state. -/
theorem pushPatch_shape (e : Env) (w : World) (pn : String) :
    (pushPatch e w pn).world.d.patches = w.d.patches ∧
    (((pushPatch e w pn).world.t.applied = w.t.applied ∧
      (pushPatch e w pn).world.t.unapplied = w.t.unapplied ∧
      (pushPatch e w pn).world.t.hidden = w.t.hidden ∧
      (pushPatch e w pn).world.t.patchesOv = w.t.patchesOv ∧
      (pushPatch e w pn).isOk = false)
    ∨ (∃ comm,
      (pushPatch e w pn).isOk = true ∧
      (pushPatch e w pn).world.t.applied =
        (applyUpdate w.t ⟨pn, comm⟩).applied ∧
      (pushPatch e w pn).world.t.unapplied =
        (applyUpdate w.t ⟨pn, comm⟩).unapplied ∧
      (pushPatch e w pn).world.t.hidden =
        (applyUpdate w.t ⟨pn, comm⟩).hidden ∧
      (pushPatch e w pn).world.t.patchesOv =
        (applyUpdate w.t ⟨pn, comm⟩).patchesOv)) := by
  cases hm : (mergeOut e w pn).result with
  | some tr =>
    have hred : pushPatch e w pn =
        finishPush
          { w with t := { w.t with tempIndexTree := (mergeOut e w pn).current } }
          pn (((origCdOf w pn).set_committer none).set_parent (w.t.top w.d))
          (origCdOf w pn) tr false "" := by
      simp [pushPatch, hm]
    obtain ⟨hok, hd, ht⟩ := finishPush_ok_fields
      { w with t := { w.t with tempIndexTree := (mergeOut e w pn).current } }
      pn (((origCdOf w pn).set_committer none).set_parent (w.t.top w.d))
      (origCdOf w pn) tr ""
    rw [hred]
    refine ⟨(congrArg Disk.patches hd).trans rfl,
      Or.inr ⟨if cdChanged
          ((((origCdOf w pn).set_committer none).set_parent
            (w.t.top w.d)).set_tree tr) (origCdOf w pn)
        then some w.r.next else none, hok, ?_, ?_, ?_, ?_⟩⟩
    · rw [ht]
      exact (applyUpdate_fields_congr
        { w.t with tempIndexTree := (mergeOut e w pn).current } w.t
        _ rfl rfl rfl rfl).1
    · rw [ht]
      exact (applyUpdate_fields_congr
        { w.t with tempIndexTree := (mergeOut e w pn).current } w.t
        _ rfl rfl rfl rfl).2.1
    · rw [ht]
      exact (applyUpdate_fields_congr
        { w.t with tempIndexTree := (mergeOut e w pn).current } w.t
        _ rfl rfl rfl rfl).2.2.1
    · rw [ht]
      exact (applyUpdate_fields_congr
        { w.t with tempIndexTree := (mergeOut e w pn).current } w.t
        _ rfl rfl rfl rfl).2.2.2
  | none =>
    cases hiw : e.iw with
    | false =>
      have hred : pushPatch e w pn =
          haltW
            { w with t := { w.t with tempIndexTree := (mergeOut e w pn).current } }
            (pn ++ " does not apply cleanly") none := by
        simp [pushPatch, hm, hiw]
      rw [hred]
      exact ⟨rfl, Or.inl ⟨rfl, rfl, rfl, rfl, rfl⟩⟩
    | true =>
      cases hco : checkoutStep e
          { w with t := { w.t with tempIndexTree := (mergeOut e w pn).current } }
          (oursOf w pn) true false with
      | abortC w2 =>
        have hw2 := checkoutStep_notok_eq.2 hco
        have hred : pushPatch e w pn = .abortP w2 := by
          simp [pushPatch, hm, hiw, hco]
        rw [hred]
        subst hw2
        exact ⟨rfl, Or.inl ⟨rfl, rfl, rfl, rfl, rfl⟩⟩
      | coFail w2 =>
        have hw2 := checkoutStep_notok_eq.1 hco
        have hred : pushPatch e w pn =
            haltW w2 "Index/worktree dirty" none := by
          simp [pushPatch, hm, hiw, hco]
        rw [hred]
        subst hw2
        exact ⟨rfl, Or.inl ⟨rfl, rfl, rfl, rfl, rfl⟩⟩
      | ok w2 =>
        obtain ⟨ct, co, hw2⟩ := checkoutStep_ok_shape hco
        cases him : e.iwMerge with
        | clean tr2 =>
          have hred : pushPatch e w pn =
              finishPush { w2 with t := { w2.t with currentTree := tr2 } }
                pn
                (((origCdOf w pn).set_committer none).set_parent (w.t.top w.d))
                (origCdOf w pn) tr2 false " (modified)" := by
            simp [pushPatch, hm, hiw, hco, him]
          obtain ⟨hok, hd, ht⟩ := finishPush_ok_fields
            { w2 with t := { w2.t with currentTree := tr2 } } pn
            (((origCdOf w pn).set_committer none).set_parent (w.t.top w.d))
            (origCdOf w pn) tr2 " (modified)"
          rw [hred]
          subst hw2
          refine ⟨(congrArg Disk.patches hd).trans rfl,
            Or.inr ⟨if cdChanged
                ((((origCdOf w pn).set_committer none).set_parent
                  (w.t.top w.d)).set_tree tr2) (origCdOf w pn)
              then some w.r.next else none, hok, ?_, ?_, ?_, ?_⟩⟩
          · rw [ht]
            exact (applyUpdate_fields_congr
              { w.t with tempIndexTree := (mergeOut e w pn).current, currentTree := tr2 } w.t _ rfl rfl rfl rfl).1
          · rw [ht]
            exact (applyUpdate_fields_congr
              { w.t with tempIndexTree := (mergeOut e w pn).current, currentTree := tr2 } w.t _ rfl rfl rfl rfl).2.1
          · rw [ht]
            exact (applyUpdate_fields_congr
              { w.t with tempIndexTree := (mergeOut e w pn).current, currentTree := tr2 } w.t _ rfl rfl rfl rfl).2.2.1
          · rw [ht]
            exact (applyUpdate_fields_congr
              { w.t with tempIndexTree := (mergeOut e w pn).current, currentTree := tr2 } w.t _ rfl rfl rfl rfl).2.2.2
        | conflict =>
          have hred : pushPatch e w pn =
              finishPush w2 pn
                (((origCdOf w pn).set_committer none).set_parent (w.t.top w.d))
                (origCdOf w pn) (oursOf w pn) true " (conflict)" := by
            simp [pushPatch, hm, hiw, hco, him]
          obtain ⟨hd, h1, h2, h3, h4, hok⟩ := finishPush_mc_fields w2 pn
            (((origCdOf w pn).set_committer none).set_parent (w.t.top w.d))
            (origCdOf w pn) (oursOf w pn) " (conflict)"
          rw [hred]
          subst hw2
          exact ⟨(congrArg Disk.patches hd).trans rfl,
            Or.inl ⟨h1.trans rfl, h2.trans rfl, h3.trans rfl, h4.trans rfl,
              hok⟩⟩
        | mergeErr msg =>
          have hred : pushPatch e w pn = haltW w2 msg none := by
            simp [pushPatch, hm, hiw, hco, him]
          rw [hred]
          subst hw2
          exact ⟨rfl, Or.inl ⟨rfl, rfl, rfl, rfl, rfl⟩⟩

/-- Helper: `update()` lookups: the pushed patch gains its new commit (when
there is one); every other name is untouched. -/
theorem applyUpdate_lookup (t : StackTransaction) (pn : String)
    (comm : Option Sha) (q : String) :
    (applyUpdate t ⟨pn, comm⟩).patchesOv.lookup q =
      (match comm with
        | some c => if q = pn then some (some c) else t.patchesOv.lookup q
        | none => t.patchesOv.lookup q) := by
  unfold applyUpdate
  cases comm <;> dsimp only <;> split <;> simp [ovSet_lookup]

/-- Helper: `update()` of a patch in `unapplied` or `hidden` preserves the
strengthened invariant and (pointwise) the live set. -/
theorem stackInvND_applyUpdate (t : StackTransaction)
    (dp : List (String × Sha)) (pn : String) (comm : Option Sha)
    (h : stackInvND t dp) (hpn : pn ∈ t.unapplied ∨ pn ∈ t.hidden) :
    stackInvND (applyUpdate t ⟨pn, comm⟩) dp ∧
    (∀ q, liveB (applyUpdate t ⟨pn, comm⟩) dp q = liveB t dp q) := by
  have hmemAll : pn ∈ allNames t := by
    unfold allNames
    rcases hpn with h1 | h1 <;> simp [h1]
  have hlive : ∀ q, liveB (applyUpdate t ⟨pn, comm⟩) dp q = liveB t dp q := by
    intro q
    unfold liveB
    rw [applyUpdate_lookup]
    cases comm with
    | none => rfl
    | some c =>
      dsimp only
      by_cases hq : q = pn
      · subst hq
        rw [if_pos rfl]
        have hl := (h.2 q).mp hmemAll
        unfold liveB at hl
        exact hl.symm
      · rw [if_neg hq]
  have happ := applyUpdate_applied t ⟨pn, comm⟩
  have hperm : List.Perm (allNames (applyUpdate t ⟨pn, comm⟩)) (allNames t) := by
    by_cases hh : pn ∈ t.hidden
    · have hfields : (applyUpdate t ⟨pn, comm⟩).unapplied = t.unapplied ∧
          (applyUpdate t ⟨pn, comm⟩).hidden = t.hidden.erase pn := by
        unfold applyUpdate
        cases comm <;> dsimp only <;> simp [hh]
      have s1 : List.Perm (pn :: (t.unapplied ++ t.hidden.erase pn))
          (t.unapplied ++ pn :: t.hidden.erase pn) := List.perm_middle.symm
      have s2 : List.Perm (t.unapplied ++ pn :: t.hidden.erase pn)
          (t.unapplied ++ t.hidden) :=
        ((List.perm_cons_erase hh).symm).append_left t.unapplied
      have s3 := (s1.trans s2).append_left t.applied
      unfold allNames
      rw [happ, hfields.1, hfields.2]
      simpa [List.append_assoc] using s3
    · have hu : pn ∈ t.unapplied := hpn.resolve_right hh
      have hfields : (applyUpdate t ⟨pn, comm⟩).unapplied = t.unapplied.erase pn ∧
          (applyUpdate t ⟨pn, comm⟩).hidden = t.hidden := by
        unfold applyUpdate
        cases comm <;> dsimp only <;> simp [hh]
      have s1 : List.Perm (pn :: t.unapplied.erase pn) t.unapplied :=
        (List.perm_cons_erase hu).symm
      have s2 := (s1.append_right t.hidden).append_left t.applied
      unfold allNames
      rw [happ, hfields.1, hfields.2]
      simpa [List.append_assoc] using s2
  refine ⟨⟨hperm.nodup_iff.mpr h.1, fun q => ?_⟩, hlive⟩
  rw [hperm.mem_iff, hlive q]
  exact h.2 q

/-- Helper: `push_patch` of a patch currently in `unapplied` or `hidden`
preserves the strengthened invariant on every outcome; it leaves the stack's
patch map and (pointwise) the live set unchanged, and on completion appends
the patch to `applied`. -/
theorem stackInvND_push (e : Env) (w : World) (pn : String)
    (h : stackInvND w.t w.d.patches)
    (hpn : pn ∈ w.t.unapplied ∨ pn ∈ w.t.hidden) :
    stackInvND (pushPatch e w pn).world.t (pushPatch e w pn).world.d.patches ∧
    (pushPatch e w pn).world.d.patches = w.d.patches ∧
    (∀ q, liveB (pushPatch e w pn).world.t w.d.patches q =
      liveB w.t w.d.patches q) ∧
    ((pushPatch e w pn).isOk = true →
      (pushPatch e w pn).world.t.applied = w.t.applied ++ [pn]) := by
  obtain ⟨hdp, hcase⟩ := pushPatch_shape e w pn
  rcases hcase with ⟨h1, h2, h3, h4, hok⟩ | ⟨comm, hok, h1, h2, h3, h4⟩
  · refine ⟨?_, hdp, fun q => liveB_eq_of_ov h4 _ q, ?_⟩
    · rw [hdp]
      exact stackInvND_eqv h1 h2 h3 h4 h
    · intro hok2
      rw [hok] at hok2
      cases hok2
  · obtain ⟨hinv2, hlive2⟩ :=
      stackInvND_applyUpdate w.t w.d.patches pn comm h hpn
    refine ⟨?_, hdp, ?_, ?_⟩
    · rw [hdp]
      exact stackInvND_eqv h1 h2 h3 h4 hinv2
    · intro q
      rw [liveB_eq_of_ov h4 _ q]
      exact hlive2 q
    · intro _
      rw [h1, applyUpdate_applied]

/-- Helper: the push loop of `reorder_patches` preserves the strengthened
invariant, provided every patch still to be pushed is live and not yet
applied. -/
theorem pushLoop_inv (e : Env) (ps : List String) :
    ∀ wk : World,
      stackInvND wk.t wk.d.patches →
      (∀ pn ∈ ps, liveB wk.t wk.d.patches pn = true) →
      (∀ pn ∈ ps, pn ∉ wk.t.applied) →
      ps.Nodup →
      stackInvND (pushLoop e wk ps).world.t
        (pushLoop e wk ps).world.d.patches := by
  induction ps with
  | nil =>
    intro wk hinv _ _ _
    exact hinv
  | cons pn rest ih =>
    intro wk hinv hlive hnotap hnd
    have hl := hlive pn (by simp)
    have hmem : pn ∈ allNames wk.t := (hinv.2 pn).mpr hl
    have hpn : pn ∈ wk.t.unapplied ∨ pn ∈ wk.t.hidden := by
      unfold allNames at hmem
      rcases List.mem_append.mp hmem with hm | hm
      · rcases List.mem_append.mp hm with hm2 | hm2
        · exact absurd hm2 (hnotap pn (by simp))
        · exact Or.inl hm2
      · exact Or.inr hm
    obtain ⟨hinvP, hdpP, hliveP, happP⟩ := stackInvND_push e wk pn hinv hpn
    unfold pushLoop
    cases hp : pushPatch e wk pn with
    | ok w' s =>
      rw [hp] at hinvP hdpP hliveP happP
      have hdp' : w'.d.patches = wk.d.patches := hdpP
      have hlive' : ∀ q, liveB w'.t wk.d.patches q =
          liveB wk.t wk.d.patches q := hliveP
      have happ' : w'.t.applied = wk.t.applied ++ [pn] := happP rfl
      have hnd' := List.nodup_cons.mp hnd
      apply ih w' hinvP
      · intro q hq
        rw [hdp', hlive' q]
        exact hlive q (by simp [hq])
      · intro q hq
        rw [happ']
        intro hqm
        rcases List.mem_append.mp hqm with hq2 | hq2
        · exact hnotap q (by simp [hq]) hq2
        · rw [List.mem_singleton.mp hq2] at hq
          exact hnd'.1 hq
      · exact hnd'.2
    | halted w' m pr =>
      rw [hp] at hinvP
      exact hinvP
    | abortP w' =>
      rw [hp] at hinvP
      exact hinvP

/-- Helper: the common-prefix length really is a common prefix. -/
theorem commonLen_take (l1 l2 : List String) :
    l1.take (commonLen l1 l2) = l2.take (commonLen l1 l2) := by
  induction l1 generalizing l2 with
  | nil => simp [commonLen]
  | cons a as ihl =>
    cases l2 with
    | nil => simp [commonLen]
    | cons b bs =>
      by_cases hab : a = b
      · simp [commonLen, hab, ihl bs]
      · simp [commonLen, hab]

/-- Helper: the common-prefix length is bounded by either list. -/
theorem commonLen_le (l1 l2 : List String) : commonLen l1 l2 ≤ l1.length := by
  induction l1 generalizing l2 with
  | nil => simp [commonLen]
  | cons a as ihl =>
    cases l2 with
    | nil => simp [commonLen]
    | cons b bs =>
      by_cases hab : a = b
      · simpa [commonLen, hab] using ihl bs
      · simp [commonLen, hab]

/-- Helper: on a duplicate-free list, scanning for membership in the suffix
from position `n` finds exactly position `n`. -/
theorem findIdx_mem_drop (l : List String) (n : Nat) (hnd : l.Nodup)
    (hn : n ≤ l.length) :
    l.findIdx (fun pn => (l.drop n).contains pn) = n := by
  induction l generalizing n with
  | nil =>
    have : n = 0 := Nat.le_zero.mp (by simpa using hn)
    simp [this]
  | cons x rest ih =>
    cases n with
    | zero =>
      have hx : ((x :: rest).drop 0).contains x = true := by simp
      simp [List.findIdx_cons, hx]
    | succ m =>
      have hxr : x ∉ rest := (List.nodup_cons.mp hnd).1
      have hx : ((x :: rest).drop (m + 1)).contains x = false := by
        rw [List.drop_succ_cons]
        have : x ∉ rest.drop m := fun hm => hxr (List.mem_of_mem_drop hm)
        simpa using this
      rw [List.findIdx_cons, hx]
      simp only [cond_false, List.drop_succ_cons]
      rw [ih m (List.nodup_cons.mp hnd).2 (by simpa using hn)]

/-- Helper: Python set equality of name lists gives membership
equivalence. -/
theorem listSetEq_mem {a b : List String} (h : listSetEq a b = true) :
    ∀ x, x ∈ a ↔ x ∈ b := by
  unfold listSetEq at h
  rw [Bool.and_eq_true] at h
  rw [List.all_eq_true] at h
  obtain ⟨h1, h2⟩ := h
  rw [List.all_eq_true] at h2
  intro x
  constructor
  · intro hx
    exact List.elem_iff.mp (h1 x hx)
  · intro hx
    exact List.elem_iff.mp (h2 x hx)

/-- Helper: `reorder_patches` preserves the strengthened invariant when the
requested lists are duplicate-free and every requested applied patch is
live. -/
theorem stackInvND_reorder (e : Env) (w : World) (ap un hi : List String)
    (hinv : stackInvND w.t w.d.patches)
    (hnd : (ap ++ un ++ hi).Nodup)
    (hlive : ∀ pn ∈ ap, liveB w.t w.d.patches pn = true) :
    stackInvND (reorder_patches e w ap un hi).world.t
      (reorder_patches e w ap un hi).world.d.patches := by
  have hndap : ap.Nodup :=
    ((List.sublist_append_left ap un).trans
      (List.sublist_append_left (ap ++ un) hi)).nodup hnd
  have hndappl : w.t.applied.Nodup :=
    ((List.sublist_append_left w.t.applied w.t.unapplied).trans
      (List.sublist_append_left (w.t.applied ++ w.t.unapplied)
        w.t.hidden)).nodup hinv.1
  have hpop_applied :
      (w.t.pop_patches (fun pn =>
        (w.t.applied.drop (commonLen w.t.applied ap)).contains pn)).1.applied =
      w.t.applied.take (commonLen w.t.applied ap) := by
    have hidx := findIdx_mem_drop w.t.applied (commonLen w.t.applied ap)
      hndappl (commonLen_le _ _)
    show (popSplit (fun pn =>
      (w.t.applied.drop (commonLen w.t.applied ap)).contains pn)
        w.t.applied).1 = w.t.applied.take (commonLen w.t.applied ap)
    rw [popSplit_eq]
    dsimp only
    rw [hidx]
  have hinv1 : stackInvND
      (w.t.pop_patches (fun pn =>
        (w.t.applied.drop (commonLen w.t.applied ap)).contains pn)).1
      w.d.patches := stackInvND_pop _ _ _ hinv
  have hliveD : ∀ pn ∈ ap.drop (commonLen w.t.applied ap),
      liveB (w.t.pop_patches (fun pn =>
        (w.t.applied.drop (commonLen w.t.applied ap)).contains pn)).1
        w.d.patches pn = true := by
    intro q hq
    rw [liveB_eq_of_ov rfl]
    exact hlive q ((List.drop_sublist _ _).subset hq)
  have hnotapD : ∀ pn ∈ ap.drop (commonLen w.t.applied ap),
      pn ∉ (w.t.pop_patches (fun pn =>
        (w.t.applied.drop (commonLen w.t.applied ap)).contains pn)).1.applied := by
    intro q hq
    rw [hpop_applied, commonLen_take]
    intro hqt
    have hdisj : (ap.take (commonLen w.t.applied ap)).Disjoint
        (ap.drop (commonLen w.t.applied ap)) := by
      apply List.disjoint_of_nodup_append
      rw [List.take_append_drop]
      exact hndap
    exact hdisj hqt hq
  have hndD : (ap.drop (commonLen w.t.applied ap)).Nodup :=
    (List.drop_sublist _ _).nodup hndap
  have hloop := pushLoop_inv e (ap.drop (commonLen w.t.applied ap))
    { w with t := (w.t.pop_patches (fun pn =>
        (w.t.applied.drop (commonLen w.t.applied ap)).contains pn)).1 }
    hinv1 hliveD hnotapD hndD
  unfold reorder_patches
  dsimp only
  cases hpl : pushLoop e
      { w with t := (w.t.pop_patches (fun pn =>
        (w.t.applied.drop (commonLen w.t.applied ap)).contains pn)).1 }
      (ap.drop (commonLen w.t.applied ap)) with
  | halted w2 m =>
    rw [hpl] at hloop
    exact hloop
  | abortR w2 =>
    rw [hpl] at hloop
    exact hloop
  | assertFail w2 =>
    rw [hpl] at hloop
    exact hloop
  | ok w2 =>
    rw [hpl] at hloop
    show stackInvND
      ((if w2.t.applied = ap ∧
          listSetEq (w2.t.unapplied ++ w2.t.hidden) (un ++ hi) = true then
        ReorderRes.ok { w2 with t := { w2.t with unapplied := un, hidden := hi } }
      else ReorderRes.assertFail w2)).world.t
      ((if w2.t.applied = ap ∧
          listSetEq (w2.t.unapplied ++ w2.t.hidden) (un ++ hi) = true then
        ReorderRes.ok { w2 with t := { w2.t with unapplied := un, hidden := hi } }
      else ReorderRes.assertFail w2)).world.d.patches
    split_ifs with ha
    · obtain ⟨ha1, ha2⟩ := ha
      have hset := listSetEq_mem ha2
      show stackInvND { w2.t with unapplied := un, hidden := hi } w2.d.patches
      constructor
      · show (allNames { w2.t with unapplied := un, hidden := hi }).Nodup
        unfold allNames
        dsimp only
        rw [ha1]
        exact hnd
      · intro q
        have hq2 : q ∈ w2.t.applied ++ w2.t.unapplied ++ w2.t.hidden ↔
            liveB w2.t w2.d.patches q = true := hloop.2 q
        unfold allNames
        dsimp only
        rw [show liveB { w2.t with unapplied := un, hidden := hi }
            w2.d.patches q = liveB w2.t w2.d.patches q from
          liveB_eq_of_ov rfl _ q]
        rw [← hq2]
        have hs := hset q
        simp only [List.mem_append] at hs ⊢
        tauto
    · exact hloop

/-- C9 (amended): with the invariant strengthened to also require that the
concatenation of `applied`, `unapplied`, `hidden` is duplicate-free (which
subsumes pairwise disjointness), the invariant "the three lists partition
the live patch names" is preserved by `pop_patches` and `delete_patches`
from any state satisfying it, by `push_patch` whenever the pushed patch is
currently in `unapplied` or `hidden`, and by `reorder_patches` whenever the
requested lists are duplicate-free and every requested applied patch names a
live patch.  (The duplicate-freedom strengthening is forced by the
counterexample: with a duplicated name the claimed invariant holds but is
not preserved by `push_patch`.) -/
theorem stack_inv_preserved :
    (∀ (t : StackTransaction) (dp : List (String × Sha)) (p : String → Bool),
      stackInvND t dp → stackInvND (t.pop_patches p).1 dp) ∧
    (∀ (t : StackTransaction) (dp : List (String × Sha)) (p : String → Bool),
      stackInvND t dp → stackInvND (t.delete_patches p).1 dp) ∧
    (∀ (e : Env) (w : World) (pn : String),
      stackInvND w.t w.d.patches →
      pn ∈ w.t.unapplied ∨ pn ∈ w.t.hidden →
      stackInvND (pushPatch e w pn).world.t
        (pushPatch e w pn).world.d.patches) ∧
    (∀ (e : Env) (w : World) (ap un hi : List String),
      stackInvND w.t w.d.patches →
      (ap ++ un ++ hi).Nodup →
      (∀ pn ∈ ap, liveB w.t w.d.patches pn = true) →
      stackInvND (reorder_patches e w ap un hi).world.t
        (reorder_patches e w ap un hi).world.d.patches) :=
  ⟨fun t dp p h => stackInvND_pop t dp p h,
   fun t dp p h => stackInvND_delete t dp p h,
   fun e w pn h hpn => (stackInvND_push e w pn h hpn).1,
   fun e w ap un hi h1 h2 h3 => stackInvND_reorder e w ap un hi h1 h2 h3⟩

/-- Witness for C9 (amended) at a concrete state: the strengthened invariant
holds of `wS` and survives a pop and a push. -/
theorem stack_inv_preserved_witness :
    stackInvND (wS.t.pop_patches (fun _ => true)).1 wS.d.patches ∧
    stackInvND (pushPatch eNoIw wS "b").world.t
      (pushPatch eNoIw wS "b").world.d.patches := by
  have hinv : stackInvND wS.t wS.d.patches := by
    constructor
    · decide
    · intro pn
      by_cases hp : pn = "b"
      · simp [allNames, liveB, wS, tS, dS, hp, List.lookup]
      · have hb : (pn == "b") = false := by simpa using hp
        simp [allNames, liveB, wS, tS, dS, hp, hb, List.lookup]
  exact ⟨stack_inv_preserved.1 wS.t wS.d.patches (fun _ => true) hinv,
    stack_inv_preserved.2.2.1 eNoIw wS "b" hinv (Or.inl (by decide))⟩

end StGit
